import Mathlib

/-!
# fastcache: offset addressing, prime-sized bucket tables and the memory manager

A shallow embedding of `utils.go` (`NodeTo`, `ToDataNode`, `findNextPrime`) and,
for the operations exercised by `memlru_test.go` whose implementation is not part
of the sources, a model of the memory manager taken from the design document.

Machine integers are unbounded `Nat`/`Int` values reduced explicitly:
`uintptr`/`uint64` are naturals below `2^64` with addition modulo `2^64`, and the
Go `int` is the 64-bit two's-complement range `[-2^63, 2^63)`.
-/

namespace Fastcache

/-! ## Machine integers -/

/-- Number of distinct `uintptr` / `uint64` values on the 64-bit target: `2^64`. -/
def wordSize : Nat := 18446744073709551616

/-- Smallest Go `int`: `-2^63`. -/
def minInt : Int := -9223372036854775808

/-- Largest Go `int`: `2^63 - 1`. -/
def maxInt : Int := 9223372036854775807

/-- A value is a Go `int` when it lies in `[-2^63, 2^63)`. -/
def IsGoInt (n : Int) : Prop := minInt ≤ n ∧ n ≤ maxInt

instance (n : Int) : Decidable (IsGoInt n) := by
  unfold IsGoInt; exact inferInstance

/-- Two's-complement reduction of a mathematical integer to a Go `int`. -/
def wrapInt (x : Int) : Int :=
  (x + 9223372036854775808) % 18446744073709551616 - 9223372036854775808

/-- A value is a `uintptr` when it is below `2^64`. -/
def IsUintptr (a : Nat) : Prop := a < wordSize

instance (a : Nat) : Decidable (IsUintptr a) := by
  unfold IsUintptr; exact inferInstance

/-! ## `utils.go` -/

/-- Go pointers are modelled by their address, a `uintptr` value; the `nil`
pointer is address `0`. -/
def nil : Nat := 0

/-- Generic `NodeTo[T](node)`: `dataPtr := uintptr(unsafe.Pointer(node)) + sizeOfDataNode`,
returned as a `*T`.  The constant `sizeOfDataNode` is declared outside `utils.go`
and is taken as a parameter; `uintptr` addition is modulo `2^64`. -/
def NodeTo (sizeOfDataNode : Nat) (node : Nat) : Nat :=
  (node + sizeOfDataNode) % wordSize

/-- Function `ToDataNode(base, offset)`: `nil` when `offset == 0`, otherwise the pointer
`unsafe.Pointer(base + uintptr(offset))`, with `uintptr` addition modulo `2^64`. -/
def ToDataNode (base : Nat) (offset : Nat) : Nat :=
  if offset = 0 then nil else (base + offset) % wordSize

/-- Method `(*big.Int).ProbablyPrime(0)` of the Go standard library on `big.NewInt(x)`:
it reports `false` for a negative or zero receiver and is documented to be
"100% accurate for inputs less than 2⁶⁴", which covers every `int64`. -/
def ProbablyPrime (x : Int) : Bool :=
  decide (0 < x) && decide (Nat.Prime x.toNat)

/-- Number of loop iterations left before the counter of `findNextPrime` reaches
the prime `2`; values outside the `int` range get a larger measure because one
increment brings them into the range. -/
def primeDistance (n : Int) : Nat :=
  if IsGoInt n then ((2 - n) % 18446744073709551616).toNat else 18446744073709551616

/-- Function `findNextPrime(n)`: `for { if big.NewInt(int64(n)).ProbablyPrime(0) { return n }; n++ }`.
The conversion `int64(n)` is the identity on a 64-bit `int`, and `n++` wraps
around in two's complement. -/
def findNextPrime (n : Int) : Int :=
  if ProbablyPrime n then n else findNextPrime (wrapInt (n + 1))
termination_by primeDistance n
decreasing_by
  rename_i h
  have h2 : n ≠ 2 := by
    rintro rfl
    exact h (by simp [ProbablyPrime, Nat.prime_two])
  unfold primeDistance IsGoInt wrapInt minInt maxInt
  split <;> split <;> omega

/-- The state of the loop counter of `findNextPrime` after `k` executions of `n++`. -/
def counterAfter (k : Nat) (n : Int) : Int :=
  (fun m => wrapInt (m + 1))^[k] n

/-- Square-and-multiply modular exponentiation, used to check Lucas primality
certificates: `powModAux m fuel a e acc` is `acc * a ^ e` modulo `m` when
`e < 2 ^ fuel`. -/
def powModAux (m : Nat) : Nat → Nat → Nat → Nat → Nat
  | 0, _, _, acc => acc
  | fuel + 1, a, e, acc =>
    if e = 0 then acc
    else powModAux m fuel (a * a % m) (e / 2) (if e % 2 = 1 then acc * a % m else acc)

/-- The largest prime below `2^63`, namely `2^63 - 25`. -/
def largestPrime : Int := 9223372036854775783

/-- The property "`p` is the smallest prime that is at least `n`": `p` is prime,
`n ≤ p`, and no prime `q` satisfies `n ≤ q < p`. -/
def IsSmallestPrimeGE (n p : Int) : Prop :=
  (0 < p ∧ Nat.Prime p.toNat) ∧ n ≤ p ∧ ∀ q : Nat, q.Prime → n ≤ (q : Int) → ¬ (q : Int) < p

/-! ## The memory manager

`NewMemoryManager`, `init`, `Set`, `Get` and `Del` are exercised by
`memlru_test.go` but their implementation is not among the sources; they are
modelled from the design document.  The region is kept at the level of records:
the bytes at an offset are read as one `DataNode`, and the three linked
structures threaded through the nodes (`chainNext`, `lruPrev`/`lruNext`, and the
free-list link) are represented by the sequences of offsets met when following
the links from their heads. -/

/-- Byte strings: Go `string` keys and `[]byte` values. -/
abbrev Bytes := List UInt8

/-- Modelled from the spec: the error kinds of section 7 (`ErrNotFound` of the
test is `notFound`); the declarations of the error values are missing. -/
inductive CacheError where
  | notFound
  | outOfSpace
  | entryTooLarge
  | alreadyInitialized
  | corruption
  deriving DecidableEq, Repr

/-- Modelled from the spec: the constants the missing manager is built with: the
byte size of the region header, of one bucket slot and of the fixed node header
(`sizeOfDataNode`, which is positive because the header holds the length, hash
and link fields), the configured table size, and the key hash ("any
well-distributed string hash"). -/
structure Layout where
  headerSize : Nat
  slotSize : Nat
  sizeOfDataNode : Nat
  sizeOfDataNode_pos : 0 < sizeOfDataNode
  tableSize : Int
  hash : Bytes → Nat

/-- Modelled from the spec: the missing `DataNode` record of section 3.  The
fields `keyLength` and `valueLength` are the lengths of the inline `key` and
`value`; `footprint` is the node's capacity, fixed when it is allocated; the link
fields are represented in `Region`. -/
structure DataNode where
  hash : Nat
  footprint : Nat
  key : Bytes
  value : Bytes

/-- Modelled from the spec: the missing region header, bucket table and node
store of section 3.  The list `freeList` is the free list from `freeListHead`
on, `lru` the recency list from `lruHead` (most recently used) to `lruTail`,
`buckets b` the collision chain of slot `b` from its head, and `nodes o` the
record at offset `o`; `valid` tells whether the header carries a valid mark. -/
structure Region where
  valid : Bool
  capacity : Nat
  bucketCount : Nat
  liveCount : Nat
  allocCursor : Nat
  freeList : List Nat
  lru : List Nat
  buckets : Nat → List Nat
  nodes : Nat → DataNode

/-- Modelled from the spec: the footprint of a record, "fixed header + inline key
bytes + inline value bytes" (the missing allocator computes it). -/
def footprint (L : Layout) (k v : Bytes) : Nat :=
  L.sizeOfDataNode + k.length + v.length

/-- Modelled from the spec: the bump branch of the missing `allocate`: "bump
`allocCursor` by the required footprint and return the old cursor value", failing
"when `allocCursor + footprint > capacity`". -/
def bumpAllocate (r : Region) (fp : Nat) : Option (Nat × Region) :=
  if r.allocCursor + fp ≤ r.capacity then
    some (r.allocCursor,
      { r with
        allocCursor := r.allocCursor + fp
        nodes := Function.update r.nodes r.allocCursor
          { r.nodes r.allocCursor with footprint := fp } })
  else none

/-- Modelled from the spec: the missing `allocate(keyLen, valLen)`: "if the free
list is non-empty and its head node's capacity is ≥ the requested footprint, pop
and return it ... Otherwise bump"; `none` is the failure `OutOfSpace`. -/
def allocate (r : Region) (fp : Nat) : Option (Nat × Region) :=
  match r.freeList with
  | [] => bumpAllocate r fp
  | o :: rest =>
    if fp ≤ (r.nodes o).footprint then some (o, { r with freeList := rest })
    else bumpAllocate r fp

/-- Modelled from the spec: the missing `free(offset)`: "pushes the node onto the
free list", payload bytes untouched. -/
def free (r : Region) (o : Nat) : Region :=
  { r with freeList := o :: r.freeList }

/-- Modelled from the spec: the bucket of a hash, "`hash mod bucketCount`" (the
missing hash index). -/
def bucketOf (r : Region) (h : Nat) : Nat := h % r.bucketCount

/-- Modelled from the spec: the missing chain lookup: "walks the singly linked
chain from the bucket slot, comparing full key bytes (hash equality is a fast
pre-filter)". -/
def lookup (L : Layout) (r : Region) (k : Bytes) : Option Nat :=
  (r.buckets (bucketOf r (L.hash k))).find?
    (fun o => decide ((r.nodes o).hash = L.hash k) && decide ((r.nodes o).key = k))

/-- Modelled from the spec: the missing `touch(node)`: "unlink node from its
current position, relink at head". -/
def touch (r : Region) (o : Nat) : Region :=
  { r with lru := o :: r.lru.erase o }

/-- Modelled from the spec: the missing chain removal: "walking the chain to find
and unlink" the node, in the bucket its stored hash selects. -/
def unlinkChain (r : Region) (o : Nat) : Region :=
  { r with
    buckets := Function.update r.buckets (bucketOf r (r.nodes o).hash)
      ((r.buckets (bucketOf r (r.nodes o).hash)).erase o) }

/-- Modelled from the spec: the destruction of a node by the missing `Delete`:
"unlink from chain, unlink from LRU list, free the node, `liveCount--`". -/
def removeNode (r : Region) (o : Nat) : Region :=
  let r1 := unlinkChain r o
  free { r1 with lru := r1.lru.erase o, liveCount := r1.liveCount - 1 } o

/-- Modelled from the spec: the missing `evictVictim()`: "returns `lruTail`,
unlinks it from the LRU list"; `none` when the list is empty. -/
def evictVictim (r : Region) : Option (Nat × Region) :=
  match r.lru.getLast? with
  | none => none
  | some t => some (t, { r with lru := r.lru.dropLast })

/-- Modelled from the spec: the eviction loop of the missing `Set`: "retries
allocation after evicting the current tail, repeating until allocation succeeds
or the table becomes empty"; the caller of `evictVictim` unlinks the victim from
its chain and frees it, and `liveCount` drops with every evicted entry because
it "equals the number of nodes reachable from the bucket table".  The loop "is
bounded by `liveCount`" (`fuel`); `none` is the failure `EntryTooLarge`. -/
def allocateEvicting : Nat → Region → Nat → Option Nat × Region
  | 0, r, fp =>
    match allocate r fp with
    | some (o, r1) => (some o, r1)
    | none => (none, r)
  | fuel + 1, r, fp =>
    match allocate r fp with
    | some (o, r1) => (some o, r1)
    | none =>
      match evictVictim r with
      | none => (none, r)
      | some (t, r1) =>
        let r2 := unlinkChain r1 t
        allocateEvicting fuel (free { r2 with liveCount := r2.liveCount - 1 } t) fp

/-- Modelled from the spec: the creation path of the missing `Set`: "allocate new
footprint (evicting as needed), copy payload, splice into chain head and LRU
head", `liveCount++`. -/
def insertNew (L : Layout) (r : Region) (k v : Bytes) : Option CacheError × Region :=
  match allocateEvicting r.liveCount r (footprint L k v) with
  | (none, r1) => (some CacheError.entryTooLarge, r1)
  | (some o, r1) =>
    (none,
      { r1 with
        nodes := Function.update r1.nodes o
          { hash := L.hash k, footprint := (r1.nodes o).footprint, key := k, value := v }
        buckets := Function.update r1.buckets (bucketOf r1 (L.hash k))
          (o :: r1.buckets (bucketOf r1 (L.hash k)))
        lru := o :: r1.lru
        liveCount := r1.liveCount + 1 })

/-- Modelled from the spec: the in-place overwrite of the missing `Set`: the
value bytes and `valueLength` of the existing node are rewritten. -/
def writeValue (r : Region) (o : Nat) (v : Bytes) : Region :=
  { r with nodes := Function.update r.nodes o { r.nodes o with value := v } }

/-- Modelled from the spec: the missing `Set(key, value)`: "hash key → bucket;
walk chain.  If found, and new payload fits old footprint, overwrite in place and
touch; else free old node, allocate new footprint ..., splice into chain head and
LRU head ...  If not found, same allocate/splice path, `liveCount++`."  The
replaced node is destroyed like a deleted one before the entry is created
again, so a successful overwrite leaves `liveCount` as it was.  The first
component is the returned error (`none` for `nil`). -/
def Set (L : Layout) (r : Region) (k v : Bytes) : Option CacheError × Region :=
  match lookup L r k with
  | some o =>
    if footprint L k v ≤ (r.nodes o).footprint then (none, touch (writeValue r o v) o)
    else insertNew L (removeNode r o) k v
  | none => insertNew L r k v

/-- Modelled from the spec: the missing `Get(key)`: "hash, walk chain, on match
copy out the value bytes, touch, return.  Fails with `NotFound` if absent." -/
def Get (L : Layout) (r : Region) (k : Bytes) : Except CacheError Bytes × Region :=
  match lookup L r k with
  | some o => (Except.ok (r.nodes o).value, touch r o)
  | none => (Except.error CacheError.notFound, r)

/-- Modelled from the spec: the missing `Delete(key)` (`Del` in the test): "on
match unlink from chain, unlink from LRU list, free the node, `liveCount--`.
Fails with `NotFound` if absent." -/
def Del (L : Layout) (r : Region) (k : Bytes) : Option CacheError × Region :=
  match lookup L r k with
  | some o => (none, removeNode r o)
  | none => (some CacheError.notFound, r)

/-- Modelled from the spec: the missing `init()`: on a region without a valid
header it "zeroes the header, sets `bucketCount` to the nearest prime ≥ the
configured table size, zeroes the bucket table, and sets `allocCursor` just past
the table"; on a valid header the design leaves open whether it "fails with
`AlreadyInitialized` or is a no-op", and the model takes the no-op (the test
calls `init()` before every `Set` and fails on an error). -/
def init (L : Layout) (r : Region) : Option CacheError × Region :=
  if r.valid then (none, r)
  else
    (none,
      { valid := true
        capacity := r.capacity
        bucketCount := (findNextPrime L.tableSize).toNat
        liveCount := 0
        allocCursor := L.headerSize + (findNextPrime L.tableSize).toNat * L.slotSize
        freeList := []
        lru := []
        buckets := fun _ => []
        nodes := r.nodes })

/-- Modelled from the spec: the regions an initialised manager can hold: those
obtained from `init()` on a region without a valid header, followed by any
sequence of `init`, `Set`, `Get` and `Del` calls. -/
inductive Initialised (L : Layout) : Region → Prop where
  | fresh (r : Region) : r.valid = false → Initialised L (init L r).2
  | init (r : Region) : Initialised L r → Initialised L (init L r).2
  | set (r : Region) (k v : Bytes) : Initialised L r → Initialised L (Set L r k v).2
  | get (r : Region) (k : Bytes) : Initialised L r → Initialised L (Get L r k).2
  | del (r : Region) (k : Bytes) : Initialised L r → Initialised L (Del L r k).2

/-- The invariants of section 3 of the design document, for the record-level
region: the recency list holds each live node once; a node is live iff it is a
member of exactly the chain its stored hash selects; stored hashes are the key
hashes; keys are unique across the table; `liveCount` counts the live nodes;
reclaimed nodes are members of neither structure; and every node in use lies
below `allocCursor`. -/
structure Inv (L : Layout) (r : Region) : Prop where
  valid : r.valid = true
  lru_nodup : r.lru.Nodup
  chain_mem : ∀ b o, o ∈ r.buckets b → o ∈ r.lru ∧ bucketOf r (r.nodes o).hash = b
  lru_mem : ∀ o, o ∈ r.lru → o ∈ r.buckets (bucketOf r (r.nodes o).hash)
  chain_nodup : ∀ b, (r.buckets b).Nodup
  hash_key : ∀ o, o ∈ r.lru → (r.nodes o).hash = L.hash (r.nodes o).key
  key_inj : ∀ o1 o2, o1 ∈ r.lru → o2 ∈ r.lru →
    (r.nodes o1).key = (r.nodes o2).key → o1 = o2
  live : r.liveCount = r.lru.length
  free_nodup : r.freeList.Nodup
  free_disjoint : ∀ o, o ∈ r.freeList → o ∉ r.lru
  lru_lt : ∀ o, o ∈ r.lru → o < r.allocCursor
  free_lt : ∀ o, o ∈ r.freeList → o < r.allocCursor

/-- The entries of a region in recency order (most recently used first), each
with its key, value and node footprint. -/
def view (r : Region) : List (Bytes × Bytes × Nat) :=
  r.lru.map (fun o => ((r.nodes o).key, (r.nodes o).value, (r.nodes o).footprint))

/-- The keys stored in a region, in recency order. -/
def keys (r : Region) : List Bytes :=
  r.lru.map (fun o => (r.nodes o).key)

/-- A region that satisfies the invariants, shows the entries `vs` in recency
order, has an empty free list, and has the given cursor and capacity. -/
def Filled (L : Layout) (r : Region) (vs : List (Bytes × Bytes × Nat)) (cur cap : Nat) :
    Prop :=
  Inv L r ∧ view r = vs ∧ r.freeList = [] ∧ r.allocCursor = cur ∧ r.capacity = cap

/-- An example layout: a 64-byte region header, 8-byte bucket slots, a 48-byte
node header, requested table size 5, and the key length as (poor) hash, so that
the example keys collide. -/
def exampleLayout : Layout :=
  { headerSize := 64
    slotSize := 8
    sizeOfDataNode := 48
    sizeOfDataNode_pos := by decide
    tableSize := 5
    hash := fun k => k.length }

/-- A freshly mapped region of the given capacity, without a valid header. -/
def rawRegion (cap : Nat) : Region :=
  { valid := false
    capacity := cap
    bucketCount := 0
    liveCount := 0
    allocCursor := 0
    freeList := []
    lru := []
    buckets := fun _ => []
    nodes := fun _ => { hash := 0, footprint := 0, key := [], value := [] } }

/-- The region `init` makes of `rawRegion cap` under `exampleLayout`: five
buckets, cursor just past the table at `64 + 5 * 8`. -/
def emptyRegion (cap : Nat) : Region :=
  { valid := true
    capacity := cap
    bucketCount := 5
    liveCount := 0
    allocCursor := 104
    freeList := []
    lru := []
    buckets := fun _ => []
    nodes := fun _ => { hash := 0, footprint := 0, key := [], value := [] } }

/-- The example region of capacity 254 after storing a 100-byte entry under the
key `x`: it has room for exactly one more entry of 50 bytes. -/
def crowdedRegion : Region :=
  (Set exampleLayout (emptyRegion 254) [120] (List.replicate 51 0)).2

/-! ## Facts about the machine-integer model -/

theorem findNextPrime_eq (n : Int) :
    findNextPrime n = if ProbablyPrime n then n else findNextPrime (wrapInt (n + 1)) := by
  conv_lhs => unfold findNextPrime

theorem probablyPrime_iff (x : Int) :
    ProbablyPrime x = true ↔ 0 < x ∧ Nat.Prime x.toNat := by
  simp [ProbablyPrime]

theorem probablyPrime_natCast (p : Nat) : ProbablyPrime (p : Int) = true ↔ p.Prime := by
  rw [probablyPrime_iff, Int.toNat_natCast]
  constructor
  · exact fun h => h.2
  · intro h
    exact ⟨by exact_mod_cast h.pos, h⟩

theorem probablyPrime_of_le_one (x : Int) (h : x ≤ 1) : ¬ ProbablyPrime x = true := by
  rw [probablyPrime_iff]
  rintro ⟨h0, hp⟩
  have hx : x = 1 := by omega
  subst hx
  exact Nat.not_prime_one hp

theorem wrapInt_of_isGoInt (x : Int) (h : IsGoInt x) : wrapInt x = x := by
  unfold IsGoInt minInt maxInt at h
  unfold wrapInt
  omega

theorem isGoInt_wrapInt (x : Int) : IsGoInt (wrapInt x) := by
  unfold IsGoInt minInt maxInt wrapInt
  omega

theorem wrapInt_maxInt_succ : wrapInt (maxInt + 1) = minInt := by
  unfold wrapInt maxInt minInt
  omega

theorem counterAfter_succ (k : Nat) (n : Int) :
    counterAfter (k + 1) n = counterAfter k (wrapInt (n + 1)) := by
  unfold counterAfter
  rw [Function.iterate_succ_apply]

theorem counterAfter_zero (n : Int) : counterAfter 0 n = n := rfl

/-- Below the prime `2` the loop only climbs: every Go `int` `n ≤ 2` yields `2`. -/
theorem findNextPrime_of_le_two (n : Int) (hlo : minInt ≤ n) (hhi : n ≤ 2) :
    findNextPrime n = 2 := by
  obtain ⟨d, hd⟩ : ∃ d : Nat, (2 - n).toNat = d := ⟨_, rfl⟩
  induction d generalizing n with
  | zero =>
    have : n = 2 := by omega
    subst this
    rw [findNextPrime_eq, if_pos (by simp [ProbablyPrime, Nat.prime_two])]
  | succ d ih =>
    have hn : n ≤ 1 := by omega
    rw [findNextPrime_eq, if_neg (probablyPrime_of_le_one n hn)]
    have hw : wrapInt (n + 1) = n + 1 := by
      apply wrapInt_of_isGoInt
      unfold IsGoInt minInt maxInt
      unfold minInt at hlo
      omega
    rw [hw]
    apply ih
    · unfold minInt at hlo ⊢; omega
    · omega
    · omega

/-- When some prime `p` with `n ≤ p` fits in an `int`, the loop does not wrap and
returns the least prime that is at least `n`. -/
theorem findNextPrime_least_of_prime (p : Nat) (hp : p.Prime) (hpmax : (p : Int) ≤ maxInt)
    (n : Int) (hlo : minInt ≤ n) (hnp : n ≤ p) :
    ProbablyPrime (findNextPrime n) = true ∧ n ≤ findNextPrime n ∧ findNextPrime n ≤ p ∧
      (∀ q : Int, n ≤ q → q < findNextPrime n → ¬ ProbablyPrime q = true) ∧
      counterAfter (findNextPrime n - n).toNat n = findNextPrime n := by
  obtain ⟨d, hd⟩ : ∃ d : Nat, ((p : Int) - n).toNat = d := ⟨_, rfl⟩
  induction d generalizing n with
  | zero =>
    have hn : n = p := by omega
    have hpp : ProbablyPrime n = true := by rw [hn]; exact (probablyPrime_natCast p).2 hp
    rw [findNextPrime_eq, if_pos hpp]
    refine ⟨hpp, le_refl _, hnp, ?_, ?_⟩
    · intro q h1 h2; omega
    · simp [counterAfter_zero]
  | succ d ih =>
    by_cases hpp : ProbablyPrime n = true
    · rw [findNextPrime_eq, if_pos hpp]
      refine ⟨hpp, le_refl _, hnp, ?_, ?_⟩
      · intro q h1 h2; omega
      · simp [counterAfter_zero]
    · have hne : n ≠ p := by
        intro h
        exact hpp (by rw [h]; exact (probablyPrime_natCast p).2 hp)
      have hw : wrapInt (n + 1) = n + 1 := by
        apply wrapInt_of_isGoInt
        unfold IsGoInt minInt maxInt
        unfold minInt at hlo
        unfold maxInt at hpmax
        omega
      have key := ih (n + 1) (by unfold minInt at hlo ⊢; omega) (by omega) (by omega)
      rw [findNextPrime_eq, if_neg hpp, hw]
      obtain ⟨k1, k2, k3, k4, k5⟩ := key
      refine ⟨k1, by omega, k3, ?_, ?_⟩
      · intro q h1 h2
        by_cases hq : q = n
        · rw [hq]; exact hpp
        · exact k4 q (by omega) h2
      · have hk : (findNextPrime (n + 1) - n).toNat = (findNextPrime (n + 1) - (n + 1)).toNat + 1 := by
          omega
        rw [hk, counterAfter_succ, hw, k5]

theorem powModAux_spec (m : Nat) : ∀ (fuel a e acc : Nat), e < 2 ^ fuel →
    powModAux m fuel a e acc % m = acc * a ^ e % m := by
  intro fuel
  induction fuel with
  | zero =>
    intro a e acc h
    have : e = 0 := by simpa using h
    subst this
    simp [powModAux]
  | succ f ih =>
    intro a e acc h
    unfold powModAux
    by_cases he : e = 0
    · simp [he]
    · rw [if_neg he]
      have h2 : e / 2 < 2 ^ f := by
        rw [pow_succ] at h; omega
      rw [ih _ _ _ h2]
      have hdecomp : e = 2 * (e / 2) + e % 2 := by omega
      have hsq : (a * a % m) ^ (e / 2) % m = (a ^ (2 * (e / 2))) % m := by
        rw [← Nat.pow_mod, pow_mul, pow_two]
      by_cases hodd : e % 2 = 1
      · rw [if_pos hodd]
        conv_rhs => rw [hdecomp, hodd, pow_succ]
        calc acc * a % m * (a * a % m) ^ (e / 2) % m
            = ((acc * a % m) % m) * ((a * a % m) ^ (e / 2) % m) % m := by
              rw [← Nat.mul_mod]
          _ = ((acc * a) % m) * (a ^ (2 * (e / 2)) % m) % m := by rw [hsq, Nat.mod_mod]
          _ = (acc * a) * a ^ (2 * (e / 2)) % m := by rw [← Nat.mul_mod]
          _ = acc * (a ^ (2 * (e / 2)) * a) % m := by ring_nf
      · rw [if_neg hodd]
        have h0 : e % 2 = 0 := by omega
        conv_rhs => rw [hdecomp, h0, add_zero]
        calc acc * (a * a % m) ^ (e / 2) % m
            = (acc % m) * ((a * a % m) ^ (e / 2) % m) % m := by rw [← Nat.mul_mod]
          _ = (acc % m) * (a ^ (2 * (e / 2)) % m) % m := by rw [hsq]
          _ = acc * a ^ (2 * (e / 2)) % m := by rw [← Nat.mul_mod]

theorem zmod_pow_eq_one_iff (p a e : Nat) (he : e < 2 ^ 64) :
    ((a : ZMod p)) ^ e = 1 ↔ powModAux p 64 a e 1 % p = 1 % p := by
  rw [powModAux_spec p 64 a e 1 he, one_mul, ← ZMod.natCast_eq_natCast_iff', Nat.cast_pow,
    Nat.cast_one]

/-- Lucas primality test with the powers computed by `powModAux`. -/
theorem prime_of_lucas_certificate (p a : Nat) (hp : p - 1 < 2 ^ 64)
    (h1 : powModAux p 64 a (p - 1) 1 % p = 1 % p)
    (hq : ∀ q : Nat, q.Prime → q ∣ p - 1 → powModAux p 64 a ((p - 1) / q) 1 % p ≠ 1 % p) :
    p.Prime := by
  apply lucas_primality p (a : ZMod p)
  · rw [zmod_pow_eq_one_iff _ _ _ hp]
    exact h1
  · intro q hq1 hq2
    rw [Ne, zmod_pow_eq_one_iff _ _ _ (lt_of_le_of_lt (Nat.div_le_self _ _) hp)]
    exact hq q hq1 hq2

theorem prime_dvd_mul_cases {q a b : Nat} {P : Prop} (hq : q.Prime) (h : q ∣ a * b)
    (ha : q ∣ a → P) (hb : q ∣ b → P) : P :=
  ((Nat.Prime.dvd_mul hq).1 h).elim ha hb

theorem prime_dvd_prime_eq {q p : Nat} (hq : q.Prime) (hp : p.Prime) (h : q ∣ p) : q = p :=
  (Nat.prime_dvd_prime_iff_eq hq hp).1 h

set_option maxRecDepth 100000 in
theorem prime_319279 : Nat.Prime 319279 := by
  refine prime_of_lucas_certificate 319279 3 (by decide) (by decide) ?_
  intro q hq hd
  have e : 319279 - 1 = 2 * (3 * (127 * 419)) := by norm_num
  have hcases : q = 2 ∨ q = 3 ∨ q = 127 ∨ q = 419 := by
    rw [e] at hd
    refine prime_dvd_mul_cases hq hd
      (fun h => Or.inl (prime_dvd_prime_eq hq Nat.prime_two h)) (fun hd => ?_)
    refine prime_dvd_mul_cases hq hd
      (fun h => Or.inr (Or.inl (prime_dvd_prime_eq hq Nat.prime_three h))) (fun hd => ?_)
    refine prime_dvd_mul_cases hq hd
      (fun h => Or.inr (Or.inr (Or.inl (prime_dvd_prime_eq hq (by norm_num) h))))
      (fun h => Or.inr (Or.inr (Or.inr (prime_dvd_prime_eq hq (by norm_num) h))))
  rcases hcases with h | h | h | h <;> subst h <;> decide

theorem prime_51673 : Nat.Prime 51673 := by norm_num

set_option maxRecDepth 100000 in
theorem prime_456065899 : Nat.Prime 456065899 := by
  refine prime_of_lucas_certificate 456065899 2 (by decide) (by decide) ?_
  intro q hq hd
  have e : 456065899 - 1 = 2 * (3 * (1471 * 51673)) := by norm_num
  have hcases : q = 2 ∨ q = 3 ∨ q = 1471 ∨ q = 51673 := by
    rw [e] at hd
    refine prime_dvd_mul_cases hq hd
      (fun h => Or.inl (prime_dvd_prime_eq hq Nat.prime_two h)) (fun hd => ?_)
    refine prime_dvd_mul_cases hq hd
      (fun h => Or.inr (Or.inl (prime_dvd_prime_eq hq Nat.prime_three h))) (fun hd => ?_)
    refine prime_dvd_mul_cases hq hd
      (fun h => Or.inr (Or.inr (Or.inl (prime_dvd_prime_eq hq (by norm_num) h))))
      (fun h => Or.inr (Or.inr (Or.inr (prime_dvd_prime_eq hq prime_51673 h))))
  rcases hcases with h | h | h | h <;> subst h <;> decide

theorem prime_factors_pred (q : Nat) (hq : q.Prime) (h : q ∣ 9223372036854775783 - 1) :
    q = 2 ∨ q = 3 ∨ q = 17 ∨ q = 23 ∨ q = 319279 ∨ q = 456065899 := by
  have e : 9223372036854775783 - 1 = 2 * (3 ^ 4 * (17 * (23 * (319279 * 456065899)))) := by
    norm_num
  rw [e] at h
  refine prime_dvd_mul_cases hq h
    (fun h => Or.inl (prime_dvd_prime_eq hq Nat.prime_two h)) (fun h => ?_)
  refine prime_dvd_mul_cases hq h
    (fun h => Or.inr (Or.inl (prime_dvd_prime_eq hq Nat.prime_three
      (Nat.Prime.dvd_of_dvd_pow hq h)))) (fun h => ?_)
  refine prime_dvd_mul_cases hq h
    (fun h => Or.inr (Or.inr (Or.inl (prime_dvd_prime_eq hq (by norm_num) h)))) (fun h => ?_)
  refine prime_dvd_mul_cases hq h
    (fun h => Or.inr (Or.inr (Or.inr (Or.inl (prime_dvd_prime_eq hq (by norm_num) h)))))
    (fun h => ?_)
  exact prime_dvd_mul_cases hq h
    (fun h => Or.inr (Or.inr (Or.inr (Or.inr (Or.inl (prime_dvd_prime_eq hq prime_319279 h))))))
    (fun h => Or.inr (Or.inr (Or.inr (Or.inr (Or.inr
      (prime_dvd_prime_eq hq prime_456065899 h))))))

set_option maxRecDepth 100000 in
/-- The number `2^63 - 25` is prime (Lucas certificate with base `3`). -/
theorem prime_largest : Nat.Prime 9223372036854775783 := by
  refine prime_of_lucas_certificate 9223372036854775783 3 (by decide) (by decide) ?_
  intro q hq hd
  rcases prime_factors_pred q hq hd with h | h | h | h | h | h <;> subst h <;> decide

/-- No Go `int` above `2^63 - 25` is prime. -/
theorem not_probablyPrime_above_largest (n : Int) (h1 : largestPrime < n) (h2 : n ≤ maxInt) :
    ¬ ProbablyPrime n = true := by
  unfold largestPrime at h1
  unfold maxInt at h2
  rw [probablyPrime_iff]
  rintro ⟨-, hp⟩
  obtain ⟨m, rfl⟩ : ∃ m : Nat, n = (m : Int) := ⟨n.toNat, by omega⟩
  rw [Int.toNat_natCast] at hp
  have hm1 : 9223372036854775783 < m := by exact_mod_cast h1
  have hm2 : m ≤ 9223372036854775807 := by exact_mod_cast h2
  revert hp
  interval_cases m <;> norm_num

/-- Above the largest representable prime the counter overflows, becomes
negative and climbs to `2`. -/
theorem findNextPrime_above_largest (n : Int) (h1 : largestPrime < n) (h2 : n ≤ maxInt) :
    findNextPrime n = 2 := by
  obtain ⟨d, hd⟩ : ∃ d : Nat, (maxInt - n).toNat = d := ⟨_, rfl⟩
  induction d generalizing n with
  | zero =>
    have hn : n = maxInt := by omega
    rw [findNextPrime_eq, if_neg (not_probablyPrime_above_largest n h1 h2), hn,
      wrapInt_maxInt_succ]
    exact findNextPrime_of_le_two minInt (le_refl _) (by unfold minInt; omega)
  | succ d ih =>
    have hw : wrapInt (n + 1) = n + 1 := by
      apply wrapInt_of_isGoInt
      unfold IsGoInt minInt maxInt
      unfold maxInt at h2 hd
      unfold largestPrime at h1
      omega
    rw [findNextPrime_eq, if_neg (not_probablyPrime_above_largest n h1 h2), hw]
    apply ih
    · omega
    · omega
    · omega

theorem primeDistance_decreases (n : Int) (h : ¬ ProbablyPrime n = true) :
    primeDistance (wrapInt (n + 1)) < primeDistance n := by
  have h2 : n ≠ 2 := by
    rintro rfl
    exact h (by simp [ProbablyPrime, Nat.prime_two])
  unfold primeDistance IsGoInt wrapInt minInt maxInt
  split <;> split <;> omega

/-- The loop of `findNextPrime` returns after finitely many increments, for every
start value: the first `k` with a prime counter exists and is the result. -/
theorem findNextPrime_returns (n : Int) :
    ∃ k : Nat, k ≤ primeDistance n ∧ ProbablyPrime (counterAfter k n) = true ∧
      (∀ j : Nat, j < k → ¬ ProbablyPrime (counterAfter j n) = true) ∧
      findNextPrime n = counterAfter k n := by
  obtain ⟨d, hd⟩ : ∃ d : Nat, primeDistance n = d := ⟨_, rfl⟩
  induction d using Nat.strong_induction_on generalizing n with
  | _ d ih =>
    by_cases hpp : ProbablyPrime n = true
    · refine ⟨0, Nat.zero_le _, by simpa [counterAfter_zero] using hpp, ?_, ?_⟩
      · intro j hj; omega
      · rw [findNextPrime_eq, if_pos hpp, counterAfter_zero]
    · have hdec := primeDistance_decreases n hpp
      obtain ⟨k, k1, k2, k3, k4⟩ := ih _ (by omega) (wrapInt (n + 1)) rfl
      refine ⟨k + 1, by omega, by rw [counterAfter_succ]; exact k2, ?_, ?_⟩
      · intro j hj
        cases j with
        | zero => simpa [counterAfter_zero] using hpp
        | succ j =>
          rw [counterAfter_succ]
          exact k3 j (by omega)
      · rw [findNextPrime_eq, if_neg hpp, counterAfter_succ]
        exact k4

theorem counterAfter_no_overflow (j : Nat) (n : Int) (hlo : minInt ≤ n)
    (hhi : n + j ≤ maxInt) : counterAfter j n = n + j := by
  induction j generalizing n with
  | zero => simp [counterAfter_zero]
  | succ j ih =>
    have hw : wrapInt (n + 1) = n + 1 := by
      apply wrapInt_of_isGoInt
      unfold IsGoInt minInt maxInt
      unfold minInt at hlo
      unfold maxInt at hhi
      push_cast at hhi
      omega
    rw [counterAfter_succ, hw, ih (n + 1) (by unfold minInt at hlo ⊢; omega)
      (by push_cast at hhi ⊢; omega)]
    push_cast
    ring

theorem findNextPrime_isSmallest (n : Int) (hlo : minInt ≤ n) (hhi : n ≤ largestPrime) :
    IsSmallestPrimeGE n (findNextPrime n) ∧ findNextPrime n ≤ largestPrime := by
  have hmax : ((9223372036854775783 : Nat) : Int) ≤ maxInt := by
    unfold maxInt; norm_num
  have key := findNextPrime_least_of_prime 9223372036854775783 prime_largest hmax n hlo
    (by unfold largestPrime at hhi; exact_mod_cast hhi)
  obtain ⟨k1, k2, k3, k4, -⟩ := key
  refine ⟨⟨(probablyPrime_iff _).1 k1, k2, ?_⟩, by unfold largestPrime; exact_mod_cast k3⟩
  intro q hq hnq hlt
  exact k4 q hnq hlt ((probablyPrime_natCast q).2 hq)

/-- Whatever the node address, the payload view never coincides with the node:
a positive header size below `2^64` moves the address, also when it wraps. -/
theorem nodeTo_ne_node (sizeOfDataNode node : Nat) (hs : 0 < sizeOfDataNode)
    (hsz : IsUintptr sizeOfDataNode) : NodeTo sizeOfDataNode node ≠ node := by
  unfold NodeTo
  unfold IsUintptr at hsz
  unfold wordSize at *
  omega

/-- For every positive header size the addition in `NodeTo` wraps around at the
top of the address space: at the node address `2^64 - 1` the view lies at
`sizeOfDataNode - 1`. -/
theorem nodeTo_top_address (sizeOfDataNode : Nat) (hs : 0 < sizeOfDataNode)
    (hsz : IsUintptr sizeOfDataNode) :
    NodeTo sizeOfDataNode (wordSize - 1) = sizeOfDataNode - 1 := by
  unfold NodeTo
  unfold IsUintptr at hsz
  unfold wordSize at *
  omega

/-! ## Claims about `utils.go` -/

/-- C1 (as amended): for every Go `int` `n` up to `2^63 - 25`, the largest prime an
`int` can hold, `findNextPrime n` is the smallest prime that is at least `n`: it
is prime, it is `≥ n`, and no prime lies in `[n, findNextPrime n)`. -/
theorem findNextPrime_smallest_prime_ge (n : Int) (hn : IsGoInt n)
    (hhi : n ≤ largestPrime) : IsSmallestPrimeGE n (findNextPrime n) :=
  (findNextPrime_isSmallest n hn.1 hhi).1

theorem findNextPrime_smallest_prime_ge_witness :
    IsGoInt 8 ∧ (8 : Int) ≤ largestPrime ∧ IsSmallestPrimeGE 8 (findNextPrime 8) :=
  ⟨by decide, by decide, findNextPrime_smallest_prime_ge 8 (by decide) (by decide)⟩

/-- C1 (counterexample): the requested size `2^63 - 1` is a Go `int`, yet
`findNextPrime` returns `2` for it, which is not `≥ n`; so the result is not the
smallest prime at least `n`. -/
theorem findNextPrime_maxInt_not_smallest :
    IsGoInt maxInt ∧ findNextPrime maxInt = 2 ∧
      ¬ IsSmallestPrimeGE maxInt (findNextPrime maxInt) := by
  have h2 : findNextPrime maxInt = 2 :=
    findNextPrime_above_largest maxInt (by decide) (le_refl _)
  refine ⟨by decide, h2, ?_⟩
  rw [h2]
  rintro ⟨-, h, -⟩
  revert h
  decide

/-- C2 (as amended): whenever `base + offset` does not overflow a `uintptr`,
`ToDataNode base offset` is `nil` for `offset = 0`, otherwise it is a non-nil
pointer whose address is exactly `base + offset`; and `nil` results only from
`offset = 0`. -/
theorem toDataNode_spec (base offset : Nat) (h : base + offset < wordSize) :
    (offset = 0 → ToDataNode base offset = nil) ∧
    (offset ≠ 0 → ToDataNode base offset ≠ nil ∧ ToDataNode base offset = base + offset) ∧
    (ToDataNode base offset = nil ↔ offset = 0) := by
  have hz : offset = 0 → ToDataNode base offset = nil := by
    intro h0
    unfold ToDataNode
    rw [if_pos h0]
  have hnz : offset ≠ 0 → ToDataNode base offset = base + offset := by
    intro h0
    unfold ToDataNode
    rw [if_neg h0, Nat.mod_eq_of_lt h]
  refine ⟨hz, fun h0 => ⟨?_, hnz h0⟩, ?_, hz⟩
  · rw [hnz h0]
    unfold nil
    omega
  · intro hnil
    by_contra h0
    rw [hnz h0] at hnil
    unfold nil at hnil
    omega

theorem toDataNode_spec_witness :
    4096 + 64 < wordSize ∧ ToDataNode 4096 0 = nil ∧ ToDataNode 4096 64 = 4160 ∧
      ToDataNode 4096 64 ≠ nil :=
  ⟨by decide, (toDataNode_spec 4096 0 (by decide)).1 rfl,
    ((toDataNode_spec 4096 64 (by decide)).2.1 (by decide)).2,
    ((toDataNode_spec 4096 64 (by decide)).2.1 (by decide)).1⟩

/-- C2 (counterexample): with base address `2^64 - 16` the non-zero offset `16`
yields the `nil` pointer, because `base + uintptr(offset)` wraps to `0`. -/
theorem toDataNode_nonzero_offset_nil :
    IsUintptr 18446744073709551600 ∧ (16 : Nat) ≠ 0 ∧
      ToDataNode 18446744073709551600 16 = nil := by
  decide

/-- C8 (as amended): the bucket count computed for requested size `5` is `5`,
since `5` is itself prime; `7` is what the requested sizes `6` and `7` give. -/
theorem findNextPrime_five : findNextPrime 5 = 5 ∧ findNextPrime 6 = 7 ∧
    findNextPrime 7 = 7 := by
  have w6 : wrapInt (6 + 1) = 7 := by decide
  have p5 : ProbablyPrime 5 = true := (probablyPrime_natCast 5).2 (by norm_num)
  have p6 : ¬ ProbablyPrime 6 = true := fun h =>
    absurd ((probablyPrime_natCast 6).1 h) (by norm_num)
  have p7 : ProbablyPrime 7 = true := (probablyPrime_natCast 7).2 (by norm_num)
  have h7 : findNextPrime 7 = 7 := by rw [findNextPrime_eq, if_pos p7]
  refine ⟨by rw [findNextPrime_eq, if_pos p5], ?_, h7⟩
  rw [findNextPrime_eq, if_neg p6, w6, h7]

/-- C8 (counterexample): `findNextPrime 5` is not `7`. -/
theorem bucket_count_five_ne_seven : findNextPrime 5 ≠ 7 := by
  have p5 : ProbablyPrime 5 = true := (probablyPrime_natCast 5).2 (by norm_num)
  rw [findNextPrime_eq, if_pos p5]
  decide

/-- C9 (as amended): for a positive `sizeOfDataNode`, whenever the addition does
not overflow a `uintptr`, `NodeTo` of a non-nil node is the node address plus
`sizeOfDataNode`, and for a non-zero offset the payload of the node that
`ToDataNode base offset` designates lies at `base + offset + sizeOfDataNode`;
in both cases it differs from the node address. -/
theorem nodeTo_payload_address (sizeOfDataNode node base offset : Nat)
    (hs : 0 < sizeOfDataNode) :
    (node ≠ nil → node + sizeOfDataNode < wordSize →
      NodeTo sizeOfDataNode node = node + sizeOfDataNode ∧
      NodeTo sizeOfDataNode node ≠ node) ∧
    (offset ≠ 0 → base + offset + sizeOfDataNode < wordSize →
      NodeTo sizeOfDataNode (ToDataNode base offset) = base + offset + sizeOfDataNode ∧
      NodeTo sizeOfDataNode (ToDataNode base offset) ≠ ToDataNode base offset) := by
  constructor
  · intro _ hfit
    have e : NodeTo sizeOfDataNode node = node + sizeOfDataNode := by
      unfold NodeTo
      exact Nat.mod_eq_of_lt hfit
    rw [e]
    exact ⟨rfl, by omega⟩
  · intro h0 hfit
    have hb : ToDataNode base offset = base + offset := by
      unfold ToDataNode
      rw [if_neg h0, Nat.mod_eq_of_lt (by omega)]
    have e : NodeTo sizeOfDataNode (base + offset) = base + offset + sizeOfDataNode := by
      unfold NodeTo
      exact Nat.mod_eq_of_lt hfit
    rw [hb, e]
    exact ⟨rfl, by omega⟩

theorem nodeTo_payload_address_witness :
    NodeTo 48 4160 = 4208 ∧ NodeTo 48 4160 ≠ 4160 ∧
      NodeTo 48 (ToDataNode 4096 64) = 4208 ∧
      NodeTo 48 (ToDataNode 4096 64) ≠ ToDataNode 4096 64 :=
  ⟨((nodeTo_payload_address 48 4160 4096 64 (by decide)).1 (by decide) (by decide)).1,
    ((nodeTo_payload_address 48 4160 4096 64 (by decide)).1 (by decide) (by decide)).2,
    ((nodeTo_payload_address 48 4160 4096 64 (by decide)).2 (by decide) (by decide)).1,
    ((nodeTo_payload_address 48 4160 4096 64 (by decide)).2 (by decide) (by decide)).2⟩

/-- C9 (counterexample): for the non-nil node at address `2^64 - 8` and a node
header of `48` bytes (six 8-byte fields), `NodeTo` yields address `40`, not the
node address plus `48`; likewise for base `2^64 - 16` and offset `8`. -/
theorem nodeTo_wraps_around :
    (18446744073709551608 : Nat) ≠ nil ∧ IsUintptr 18446744073709551608 ∧
      NodeTo 48 18446744073709551608 = 40 ∧
      NodeTo 48 18446744073709551608 ≠ 18446744073709551608 + 48 ∧
      NodeTo 48 (ToDataNode 18446744073709551600 8) ≠ 18446744073709551600 + 8 + 48 := by
  decide

/-- C10 (as amended): for every Go `int` `n` the loop returns after finitely many
increments; if `1 ≤ n ≤ 2^63 - 25` the result lies in `[n, 2 * n]`, it is reached
after `findNextPrime n - n ≤ n` increments and the counter never overflows on
the way; and if `n ≤ 2` the result is `2`. -/
theorem findNextPrime_terminates_bounds (n : Int) (hn : IsGoInt n) :
    (∃ k : Nat, ProbablyPrime (counterAfter k n) = true ∧
      (∀ j : Nat, j < k → ¬ ProbablyPrime (counterAfter j n) = true) ∧
      findNextPrime n = counterAfter k n) ∧
    (1 ≤ n → n ≤ largestPrime →
      n ≤ findNextPrime n ∧ findNextPrime n ≤ 2 * n ∧
      (findNextPrime n - n).toNat ≤ n.toNat ∧
      ∀ j : Nat, j ≤ (findNextPrime n - n).toNat → counterAfter j n = n + j) ∧
    (n ≤ 2 → findNextPrime n = 2) := by
  refine ⟨?_, ?_, fun h2 => findNextPrime_of_le_two n hn.1 h2⟩
  · obtain ⟨k, -, k2, k3, k4⟩ := findNextPrime_returns n
    exact ⟨k, k2, k3, k4⟩
  · intro h1 hhi
    obtain ⟨⟨-, hge, hmin⟩, hle⟩ := findNextPrime_isSmallest n hn.1 hhi
    obtain ⟨p, hp, hnp, hp2⟩ := Nat.exists_prime_lt_and_le_two_mul n.toNat (by omega)
    have hr2 : findNextPrime n ≤ 2 * n := by
      by_contra hc
      exact hmin p hp (by omega) (by omega)
    refine ⟨hge, hr2, by omega, ?_⟩
    intro j hj
    apply counterAfter_no_overflow j n hn.1
    unfold largestPrime at hle
    unfold maxInt
    omega

theorem findNextPrime_terminates_bounds_witness :
    ((8 : Int) ≤ findNextPrime 8 ∧ findNextPrime 8 ≤ 2 * 8) ∧ findNextPrime (-3) = 2 :=
  ⟨⟨((findNextPrime_terminates_bounds 8 (by decide)).2.1 (by decide) (by decide)).1,
    ((findNextPrime_terminates_bounds 8 (by decide)).2.1 (by decide) (by decide)).2.1⟩,
    (findNextPrime_terminates_bounds (-3) (by decide)).2.2 (by decide)⟩

/-- C10 (counterexample): `n = 2^63 - 24` is a Go `int` with `n ≥ 1`, but the
counter overflows and `findNextPrime n = 2`, so `n ≤ findNextPrime n` fails. -/
theorem findNextPrime_bound_fails :
    IsGoInt 9223372036854775784 ∧ (1 : Int) ≤ 9223372036854775784 ∧
      findNextPrime 9223372036854775784 = 2 ∧
      ¬ (9223372036854775784 : Int) ≤ findNextPrime 9223372036854775784 := by
  have h2 : findNextPrime 9223372036854775784 = 2 :=
    findNextPrime_above_largest 9223372036854775784 (by decide) (by decide)
  refine ⟨by decide, by decide, h2, ?_⟩
  rw [h2]
  decide

/-! ## Frame facts about the manager operations -/

theorem bumpAllocate_some {r r1 : Region} {fp o : Nat} (h : bumpAllocate r fp = some (o, r1)) :
    o = r.allocCursor ∧ r.allocCursor + fp ≤ r.capacity ∧
      r1 = { r with
        allocCursor := r.allocCursor + fp
        nodes := Function.update r.nodes r.allocCursor
          { r.nodes r.allocCursor with footprint := fp } } := by
  unfold bumpAllocate at h
  split at h
  · rename_i hle
    injection h with h
    injection h with h1 h2
    exact ⟨h1.symm, hle, h2.symm⟩
  · exact absurd h (by simp)

/-- What `allocate` leaves unchanged, and what it guarantees about the node it returns. -/
theorem allocate_some {r r1 : Region} {fp o : Nat} (h : allocate r fp = some (o, r1)) :
    r1.valid = r.valid ∧ r1.capacity = r.capacity ∧ r1.bucketCount = r.bucketCount ∧
      r1.liveCount = r.liveCount ∧ r1.lru = r.lru ∧ r1.buckets = r.buckets ∧
      fp ≤ (r1.nodes o).footprint ∧
      (∀ x, (r1.nodes x).key = (r.nodes x).key ∧ (r1.nodes x).hash = (r.nodes x).hash ∧
        (r1.nodes x).value = (r.nodes x).value) := by
  have hb : ∀ {o r1}, bumpAllocate r fp = some (o, r1) →
      r1.valid = r.valid ∧ r1.capacity = r.capacity ∧ r1.bucketCount = r.bucketCount ∧
      r1.liveCount = r.liveCount ∧ r1.lru = r.lru ∧ r1.buckets = r.buckets ∧
      fp ≤ (r1.nodes o).footprint ∧
      (∀ x, (r1.nodes x).key = (r.nodes x).key ∧ (r1.nodes x).hash = (r.nodes x).hash ∧
        (r1.nodes x).value = (r.nodes x).value) := by
    intro o r1 h
    obtain ⟨h1, -, h3⟩ := bumpAllocate_some h
    subst h1 h3
    refine ⟨rfl, rfl, rfl, rfl, rfl, rfl, by simp, ?_⟩
    intro x
    by_cases hx : x = r.allocCursor
    · subst hx; simp
    · simp [Function.update_noteq hx]
  unfold allocate at h
  split at h
  · exact hb h
  · split at h
    · rename_i hfit
      injection h with h
      injection h with h1 h2
      subst h1 h2
      exact ⟨rfl, rfl, rfl, rfl, rfl, rfl, hfit, fun _ => ⟨rfl, rfl, rfl⟩⟩
    · exact hb h

theorem evictVictim_some {r r1 : Region} {t : Nat} (h : evictVictim r = some (t, r1)) :
    r.lru.getLast? = some t ∧ r1 = { r with lru := r.lru.dropLast } := by
  unfold evictVictim at h
  split at h
  · exact absurd h (by simp)
  · rename_i t' ht
    injection h with h
    injection h with h1 h2
    subst h1
    exact ⟨ht, h2.symm⟩

theorem allocateEvicting_frame (fp : Nat) : ∀ (fuel : Nat) (r : Region),
    (allocateEvicting fuel r fp).2.valid = r.valid ∧
    (allocateEvicting fuel r fp).2.capacity = r.capacity ∧
    (allocateEvicting fuel r fp).2.bucketCount = r.bucketCount ∧
    (allocateEvicting fuel r fp).2.liveCount ≤ r.liveCount ∧
    (∀ o, (allocateEvicting fuel r fp).1 = some o →
      fp ≤ ((allocateEvicting fuel r fp).2.nodes o).footprint) := by
  intro fuel
  induction fuel with
  | zero =>
    intro r
    unfold allocateEvicting
    cases ha : allocate r fp with
    | none => simp
    | some p =>
      obtain ⟨o, r1⟩ := p
      obtain ⟨a1, a2, a3, a4, -, -, a7, -⟩ := allocate_some ha
      simp only [a1, a2, a3, a4, le_refl, true_and]
      intro o' ho'
      injection ho' with ho'
      subst ho'
      exact a7
  | succ fuel ih =>
    intro r
    unfold allocateEvicting
    cases ha : allocate r fp with
    | some p =>
      obtain ⟨o, r1⟩ := p
      obtain ⟨a1, a2, a3, a4, -, -, a7, -⟩ := allocate_some ha
      simp only [a1, a2, a3, a4, le_refl, true_and]
      intro o' ho'
      injection ho' with ho'
      subst ho'
      exact a7
    | none =>
      simp only
      cases hv : evictVictim r with
      | none => simp
      | some p =>
        obtain ⟨t, r1⟩ := p
        simp only
        obtain ⟨-, rfl⟩ := evictVictim_some hv
        obtain ⟨i1, i2, i3, i4, i5⟩ := ih
          (free { unlinkChain { r with lru := r.lru.dropLast } t with
            liveCount := (unlinkChain { r with lru := r.lru.dropLast } t).liveCount - 1 } t)
        refine ⟨i1, i2, i3, ?_, i5⟩
        refine le_trans i4 ?_
        simp [free, unlinkChain]

/-! ## Preservation of the invariants -/

theorem inv_init (L : Layout) (r : Region) (h : r.valid = false) : Inv L (init L r).2 := by
  unfold init
  rw [if_neg (by simp [h])]
  constructor <;> simp

/-- The invariants only depend on the hashes and keys of the nodes, and on the
recency list up to its order. -/
theorem inv_congr {L : Layout} {r r1 : Region} (h : Inv L r)
    (hv : r1.valid = r.valid) (hbc : r1.bucketCount = r.bucketCount)
    (hlc : r1.liveCount = r.liveCount) (hcur : r.allocCursor ≤ r1.allocCursor)
    (hfree : r1.freeList.Sublist r.freeList) (hlru : r1.lru.Perm r.lru)
    (hb : r1.buckets = r.buckets)
    (hn : ∀ x, (r1.nodes x).key = (r.nodes x).key ∧ (r1.nodes x).hash = (r.nodes x).hash) :
    Inv L r1 := by
  have hmem : ∀ x, x ∈ r1.lru ↔ x ∈ r.lru := fun x => hlru.mem_iff
  have hbo : ∀ x, bucketOf r1 (r1.nodes x).hash = bucketOf r (r.nodes x).hash := by
    intro x
    unfold bucketOf
    rw [hbc, (hn x).2]
  constructor
  · rw [hv]; exact h.valid
  · exact hlru.nodup_iff.2 h.lru_nodup
  · intro b o ho
    rw [hb] at ho
    rw [hmem, hbo]
    exact h.chain_mem b o ho
  · intro o ho
    rw [hb, hbo]
    exact h.lru_mem o ((hmem o).1 ho)
  · intro b
    rw [hb]
    exact h.chain_nodup b
  · intro o ho
    rw [(hn o).1, (hn o).2]
    exact h.hash_key o ((hmem o).1 ho)
  · intro o1 o2 h1 h2 hk
    rw [(hn o1).1, (hn o2).1] at hk
    exact h.key_inj o1 o2 ((hmem o1).1 h1) ((hmem o2).1 h2) hk
  · rw [hlc, h.live, hlru.length_eq]
  · exact h.free_nodup.sublist hfree
  · intro o ho
    rw [hmem]
    exact h.free_disjoint o (hfree.subset ho)
  · intro o ho
    exact lt_of_lt_of_le (h.lru_lt o ((hmem o).1 ho)) hcur
  · intro o ho
    exact lt_of_lt_of_le (h.free_lt o (hfree.subset ho)) hcur

theorem inv_touch {L : Layout} {r : Region} (h : Inv L r) {o : Nat} (ho : o ∈ r.lru) :
    Inv L (touch r o) :=
  inv_congr h rfl rfl rfl (le_refl _) (List.Sublist.refl _) (List.perm_cons_erase ho).symm rfl
    (fun _ => ⟨rfl, rfl⟩)

theorem writeValue_nodes (r : Region) (o : Nat) (v : Bytes) (x : Nat) :
    ((writeValue r o v).nodes x).key = (r.nodes x).key ∧
    ((writeValue r o v).nodes x).hash = (r.nodes x).hash ∧
    ((writeValue r o v).nodes x).footprint = (r.nodes x).footprint := by
  unfold writeValue
  by_cases hx : x = o
  · subst hx; simp
  · simp [Function.update_noteq hx]

theorem inv_writeValue {L : Layout} {r : Region} (h : Inv L r) (o : Nat) (v : Bytes) :
    Inv L (writeValue r o v) :=
  inv_congr h rfl rfl rfl (le_refl _) (List.Sublist.refl _) (List.Perm.refl _) rfl
    (fun x => ⟨(writeValue_nodes r o v x).1, (writeValue_nodes r o v x).2.1⟩)

theorem inv_removeNode {L : Layout} {r : Region} (h : Inv L r) {o : Nat} (ho : o ∈ r.lru) :
    Inv L (removeNode r o) := by
  have hne : ∀ x, x ∈ r.lru.erase o ↔ x ≠ o ∧ x ∈ r.lru := fun x =>
    h.lru_nodup.mem_erase_iff
  constructor
  · exact h.valid
  · exact h.lru_nodup.erase o
  · intro b x hx
    show x ∈ r.lru.erase o ∧ bucketOf r (r.nodes x).hash = b
    have hx' : x ∈ (Function.update r.buckets (bucketOf r (r.nodes o).hash)
        ((r.buckets (bucketOf r (r.nodes o).hash)).erase o)) b := hx
    by_cases hb : b = bucketOf r (r.nodes o).hash
    · subst hb
      rw [Function.update_same] at hx'
      have hx2 := (h.chain_nodup _).mem_erase_iff.1 hx'
      exact ⟨(hne x).2 ⟨hx2.1, (h.chain_mem _ _ hx2.2).1⟩, (h.chain_mem _ _ hx2.2).2⟩
    · rw [Function.update_noteq hb] at hx'
      have hx2 := h.chain_mem b x hx'
      refine ⟨(hne x).2 ⟨?_, hx2.1⟩, hx2.2⟩
      rintro rfl
      exact hb hx2.2.symm
  · intro x hx
    show x ∈ (Function.update r.buckets (bucketOf r (r.nodes o).hash)
        ((r.buckets (bucketOf r (r.nodes o).hash)).erase o)) (bucketOf r (r.nodes x).hash)
    have hx1 := (hne x).1 hx
    by_cases hb : bucketOf r (r.nodes x).hash = bucketOf r (r.nodes o).hash
    · rw [hb, Function.update_same]
      refine (h.chain_nodup _).mem_erase_iff.2 ⟨hx1.1, ?_⟩
      rw [← hb]
      exact h.lru_mem x hx1.2
    · rw [Function.update_noteq hb]
      exact h.lru_mem x hx1.2
  · intro b
    show (Function.update r.buckets (bucketOf r (r.nodes o).hash)
        ((r.buckets (bucketOf r (r.nodes o).hash)).erase o) b).Nodup
    by_cases hb : b = bucketOf r (r.nodes o).hash
    · subst hb
      rw [Function.update_same]
      exact (h.chain_nodup _).erase o
    · rw [Function.update_noteq hb]
      exact h.chain_nodup b
  · intro x hx
    exact h.hash_key x ((hne x).1 hx).2
  · intro o1 o2 h1 h2 hk
    exact h.key_inj o1 o2 ((hne o1).1 h1).2 ((hne o2).1 h2).2 hk
  · show r.liveCount - 1 = (r.lru.erase o).length
    rw [List.length_erase_of_mem ho, h.live]
  · show (o :: r.freeList).Nodup
    exact List.nodup_cons.2 ⟨fun hc => h.free_disjoint o hc ho, h.free_nodup⟩
  · intro x hx hc
    have hx' : x ∈ o :: r.freeList := hx
    have hc' := (hne x).1 hc
    rcases List.mem_cons.1 hx' with rfl | hx2
    · exact hc'.1 rfl
    · exact h.free_disjoint x hx2 hc'.2
  · intro x hx
    exact h.lru_lt x ((hne x).1 hx).2
  · intro x hx
    have hx' : x ∈ o :: r.freeList := hx
    rcases List.mem_cons.1 hx' with rfl | hx2
    · exact h.lru_lt _ ho
    · exact h.free_lt x hx2

theorem dropLast_eq_erase {l : List Nat} {t : Nat} (hn : l.Nodup) (ht : l.getLast? = some t) :
    l.dropLast = l.erase t := by
  have hl : l = l.dropLast ++ [t] := (List.dropLast_append_getLast? t ht).symm
  have hnd : (l.dropLast ++ [t]).Nodup := by rw [← hl]; exact hn
  have hnot : t ∉ l.dropLast := by
    intro hc
    have := (List.nodup_append.1 hnd).2.2
    exact this hc (List.mem_singleton_self t)
  conv_rhs => rw [hl]
  rw [List.erase_append_right _ hnot]
  simp

theorem mem_of_getLast? {l : List Nat} {t : Nat} (ht : l.getLast? = some t) : t ∈ l :=
  List.mem_of_getLast?_eq_some ht

/-- Under the invariants, evicting the tail is the destruction of that node. -/
theorem evict_eq_removeNode {L : Layout} {r : Region} (h : Inv L r) {t : Nat}
    (ht : r.lru.getLast? = some t) :
    free { unlinkChain { r with lru := r.lru.dropLast } t with
      liveCount := (unlinkChain { r with lru := r.lru.dropLast } t).liveCount - 1 } t
      = removeNode r t := by
  unfold removeNode unlinkChain free bucketOf
  simp only [dropLast_eq_erase h.lru_nodup ht]

theorem footprint_pos (L : Layout) (k v : Bytes) : 0 < footprint L k v := by
  unfold footprint
  have := L.sizeOfDataNode_pos
  omega

/-- The node handed out by `allocate` is in neither the recency list nor the
free list, and the invariants survive. -/
theorem inv_allocate {L : Layout} {r r1 : Region} {fp o : Nat} (h : Inv L r) (hfp : 0 < fp)
    (ha : allocate r fp = some (o, r1)) :
    Inv L r1 ∧ o ∉ r1.lru ∧ o ∉ r1.freeList ∧ o < r1.allocCursor := by
  have hb : ∀ {o r1}, bumpAllocate r fp = some (o, r1) →
      Inv L r1 ∧ o ∉ r1.lru ∧ o ∉ r1.freeList ∧ o < r1.allocCursor := by
    intro o r1 hb
    obtain ⟨h1, -, h3⟩ := bumpAllocate_some hb
    subst h1 h3
    have hi : Inv L { r with
        allocCursor := r.allocCursor + fp
        nodes := Function.update r.nodes r.allocCursor
          { r.nodes r.allocCursor with footprint := fp } } := by
      refine inv_congr h rfl rfl rfl (Nat.le_add_right _ _) (List.Sublist.refl _)
        (List.Perm.refl _) rfl ?_
      intro x
      by_cases hx : x = r.allocCursor
      · subst hx; simp
      · simp [Function.update_noteq hx]
    have h1 : r.allocCursor ∉ r.lru := fun hc => lt_irrefl _ (h.lru_lt _ hc)
    have h2 : r.allocCursor ∉ r.freeList := fun hc => lt_irrefl _ (h.free_lt _ hc)
    exact ⟨hi, h1, h2, by show r.allocCursor < r.allocCursor + fp; omega⟩
  unfold allocate at ha
  split at ha
  · exact hb ha
  · rename_i o' rest hfl
    split at ha
    · injection ha with ha
      injection ha with h1 h2
      subst h1 h2
      have hnd : (o' :: rest).Nodup := by rw [← hfl]; exact h.free_nodup
      have hmem : o' ∈ r.freeList := by rw [hfl]; exact List.mem_cons_self _ _
      refine ⟨?_, h.free_disjoint _ hmem, (List.nodup_cons.1 hnd).1, h.free_lt _ hmem⟩
      refine inv_congr h rfl rfl rfl (le_refl _) ?_ (List.Perm.refl _) rfl
        (fun _ => ⟨rfl, rfl⟩)
      show rest.Sublist r.freeList
      rw [hfl]
      exact List.sublist_cons_self _ _
    · exact hb ha

/-- The eviction loop keeps the invariants, only removes entries, and hands out
a node that is in neither list. -/
theorem inv_allocateEvicting {L : Layout} {fp : Nat} (hfp : 0 < fp) :
    ∀ (fuel : Nat) (r : Region), Inv L r →
      Inv L (allocateEvicting fuel r fp).2 ∧
      (∀ x, x ∈ (allocateEvicting fuel r fp).2.lru →
        x ∈ r.lru ∧ ((allocateEvicting fuel r fp).2.nodes x).key = (r.nodes x).key) ∧
      (∀ o, (allocateEvicting fuel r fp).1 = some o →
        o ∉ (allocateEvicting fuel r fp).2.lru ∧ o ∉ (allocateEvicting fuel r fp).2.freeList ∧
        o < (allocateEvicting fuel r fp).2.allocCursor) := by
  have hsome : ∀ (r : Region) (o : Nat) (r1 : Region), Inv L r →
      allocate r fp = some (o, r1) →
      Inv L r1 ∧ (∀ x, x ∈ r1.lru → x ∈ r.lru ∧ (r1.nodes x).key = (r.nodes x).key) ∧
      (∀ o', some o = some o' → o' ∉ r1.lru ∧ o' ∉ r1.freeList ∧ o' < r1.allocCursor) := by
    intro r o r1 h ha
    obtain ⟨i1, i2, i3, i4⟩ := inv_allocate h hfp ha
    obtain ⟨-, -, -, -, a5, -, -, a8⟩ := allocate_some ha
    refine ⟨i1, ?_, ?_⟩
    · intro x hx
      rw [a5] at hx
      exact ⟨hx, (a8 x).1⟩
    · intro o' ho'
      injection ho' with ho'
      subst ho'
      exact ⟨i2, i3, i4⟩
  intro fuel
  induction fuel with
  | zero =>
    intro r h
    unfold allocateEvicting
    cases ha : allocate r fp with
    | none => exact ⟨h, fun x hx => ⟨hx, rfl⟩, fun o ho => absurd ho (by simp)⟩
    | some p =>
      obtain ⟨o, r1⟩ := p
      exact hsome r o r1 h ha
  | succ fuel ih =>
    intro r h
    unfold allocateEvicting
    cases ha : allocate r fp with
    | some p =>
      obtain ⟨o, r1⟩ := p
      exact hsome r o r1 h ha
    | none =>
      simp only
      cases hv : evictVictim r with
      | none => exact ⟨h, fun x hx => ⟨hx, rfl⟩, fun o ho => absurd ho (by simp)⟩
      | some p =>
        obtain ⟨t, r1⟩ := p
        obtain ⟨ht, rfl⟩ := evictVictim_some hv
        simp only
        rw [evict_eq_removeNode h ht]
        have hrm := inv_removeNode h (mem_of_getLast? ht)
        obtain ⟨j1, j2, j3⟩ := ih (removeNode r t) hrm
        refine ⟨j1, ?_, j3⟩
        intro x hx
        obtain ⟨k1, k2⟩ := j2 x hx
        exact ⟨List.mem_of_mem_erase k1, k2⟩

/-- Splicing a node that is in neither list, under a key not yet stored, keeps
the invariants. -/
theorem inv_splice {L : Layout} {r : Region} (h : Inv L r) {o : Nat} (k v : Bytes)
    (h1 : o ∉ r.lru) (h2 : o ∉ r.freeList) (h3 : o < r.allocCursor)
    (hk : ∀ x, x ∈ r.lru → (r.nodes x).key ≠ k) :
    Inv L { r with
      nodes := Function.update r.nodes o
        { hash := L.hash k, footprint := (r.nodes o).footprint, key := k, value := v }
      buckets := Function.update r.buckets (bucketOf r (L.hash k))
        (o :: r.buckets (bucketOf r (L.hash k)))
      lru := o :: r.lru
      liveCount := r.liveCount + 1 } := by
  have hno : ∀ x, x ∈ r.lru → x ≠ o := fun x hx hc => h1 (hc ▸ hx)
  have hnb : ∀ b, o ∉ r.buckets b := fun b hc => h1 (h.chain_mem b o hc).1
  constructor
  · exact h.valid
  · exact List.nodup_cons.2 ⟨h1, h.lru_nodup⟩
  · intro b x hx
    simp only at hx ⊢
    by_cases hb : b = bucketOf r (L.hash k)
    · subst hb
      rw [Function.update_same] at hx
      rcases List.mem_cons.1 hx with rfl | hx2
      · refine ⟨List.mem_cons_self _ _, ?_⟩
        simp [bucketOf]
      · have hx3 := h.chain_mem _ x hx2
        refine ⟨List.mem_cons_of_mem _ hx3.1, ?_⟩
        rw [Function.update_noteq (hno x hx3.1)]
        exact hx3.2
    · rw [Function.update_noteq hb] at hx
      have hx3 := h.chain_mem _ x hx
      refine ⟨List.mem_cons_of_mem _ hx3.1, ?_⟩
      rw [Function.update_noteq (hno x hx3.1)]
      exact hx3.2
  · intro x hx
    simp only at hx ⊢
    rcases List.mem_cons.1 hx with rfl | hx2
    · have e : bucketOf { r with
          nodes := Function.update r.nodes x
            { hash := L.hash k, footprint := (r.nodes x).footprint, key := k, value := v }
          buckets := Function.update r.buckets (bucketOf r (L.hash k))
            (x :: r.buckets (bucketOf r (L.hash k)))
          lru := x :: r.lru
          liveCount := r.liveCount + 1 }
          ((Function.update r.nodes x
            { hash := L.hash k, footprint := (r.nodes x).footprint, key := k,
              value := v }) x).hash = bucketOf r (L.hash k) := by
        simp [bucketOf]
      rw [e, Function.update_same]
      exact List.mem_cons_self _ _
    · rw [Function.update_noteq (hno x hx2)]
      have hx3 := h.lru_mem x hx2
      by_cases hb : bucketOf r (r.nodes x).hash = bucketOf r (L.hash k)
      · have e : bucketOf { r with
            nodes := Function.update r.nodes o
              { hash := L.hash k, footprint := (r.nodes o).footprint, key := k, value := v }
            buckets := Function.update r.buckets (bucketOf r (L.hash k))
              (o :: r.buckets (bucketOf r (L.hash k)))
            lru := o :: r.lru
            liveCount := r.liveCount + 1 } (r.nodes x).hash = bucketOf r (L.hash k) := hb
        rw [e, Function.update_same]
        rw [hb] at hx3
        exact List.mem_cons_of_mem _ hx3
      · have e : bucketOf { r with
            nodes := Function.update r.nodes o
              { hash := L.hash k, footprint := (r.nodes o).footprint, key := k, value := v }
            buckets := Function.update r.buckets (bucketOf r (L.hash k))
              (o :: r.buckets (bucketOf r (L.hash k)))
            lru := o :: r.lru
            liveCount := r.liveCount + 1 } (r.nodes x).hash
            = bucketOf r (r.nodes x).hash := rfl
        rw [e, Function.update_noteq hb]
        exact hx3
  · intro b
    simp only
    by_cases hb : b = bucketOf r (L.hash k)
    · subst hb
      rw [Function.update_same]
      exact List.nodup_cons.2 ⟨hnb _, h.chain_nodup _⟩
    · rw [Function.update_noteq hb]
      exact h.chain_nodup b
  · intro x hx
    simp only at hx ⊢
    rcases List.mem_cons.1 hx with rfl | hx2
    · simp
    · rw [Function.update_noteq (hno x hx2)]
      exact h.hash_key x hx2
  · intro o1 o2 ho1 ho2 hkk
    simp only at ho1 ho2 hkk
    rcases List.mem_cons.1 ho1 with rfl | ho1' <;> rcases List.mem_cons.1 ho2 with rfl | ho2'
    · rfl
    · rw [Function.update_same, Function.update_noteq (hno o2 ho2')] at hkk
      exact absurd hkk.symm (hk o2 ho2')
    · rw [Function.update_same, Function.update_noteq (hno o1 ho1')] at hkk
      exact absurd hkk (hk o1 ho1')
    · rw [Function.update_noteq (hno o1 ho1'), Function.update_noteq (hno o2 ho2')] at hkk
      exact h.key_inj o1 o2 ho1' ho2' hkk
  · simp [h.live]
  · exact h.free_nodup
  · intro x hx hc
    simp only at hx hc
    rcases List.mem_cons.1 hc with rfl | hc2
    · exact h2 hx
    · exact h.free_disjoint x hx hc2
  · intro x hx
    simp only at hx ⊢
    rcases List.mem_cons.1 hx with rfl | hx2
    · exact h3
    · exact h.lru_lt x hx2
  · exact h.free_lt

theorem inv_insertNew {L : Layout} {r : Region} (h : Inv L r) (k v : Bytes)
    (hk : ∀ x, x ∈ r.lru → (r.nodes x).key ≠ k) : Inv L (insertNew L r k v).2 := by
  obtain ⟨i1, i2, i3⟩ := inv_allocateEvicting (footprint_pos L k v) r.liveCount r h
  unfold insertNew
  cases hres : allocateEvicting r.liveCount r (footprint L k v) with
  | mk a r1 =>
    rw [hres] at i1 i2 i3
    cases a with
    | none => exact i1
    | some o =>
      obtain ⟨j1, j2, j3⟩ := i3 o rfl
      refine inv_splice i1 k v j1 j2 j3 ?_
      intro x hx
      obtain ⟨m1, m2⟩ := i2 x hx
      rw [m2]
      exact hk x m1

/-! ## Chain lookup -/

theorem lookup_some {L : Layout} {r : Region} {k : Bytes} {o : Nat}
    (h : lookup L r k = some o) :
    o ∈ r.buckets (bucketOf r (L.hash k)) ∧ (r.nodes o).hash = L.hash k ∧
      (r.nodes o).key = k := by
  unfold lookup at h
  have h1 := List.mem_of_find?_eq_some h
  have h2 := List.find?_some h
  simp only [Bool.and_eq_true, decide_eq_true_eq] at h2
  exact ⟨h1, h2.1, h2.2⟩

theorem lookup_mem {L : Layout} {r : Region} (hi : Inv L r) {k : Bytes} {o : Nat}
    (h : lookup L r k = some o) : o ∈ r.lru :=
  (hi.chain_mem _ _ (lookup_some h).1).1

theorem lookup_none {L : Layout} {r : Region} (hi : Inv L r) {k : Bytes}
    (h : lookup L r k = none) : ∀ x, x ∈ r.lru → (r.nodes x).key ≠ k := by
  intro x hx hk
  unfold lookup at h
  have hh : (r.nodes x).hash = L.hash k := by rw [hi.hash_key x hx, hk]
  have hb := hi.lru_mem x hx
  rw [hh] at hb
  have := List.find?_eq_none.1 h x hb
  simp [hh, hk] at this

theorem lookup_of_mem {L : Layout} {r : Region} (hi : Inv L r) {k : Bytes} {o : Nat}
    (ho : o ∈ r.lru) (hk : (r.nodes o).key = k) : lookup L r k = some o := by
  cases hl : lookup L r k with
  | none => exact absurd hk (lookup_none hi hl o ho)
  | some o' =>
    have h1 := lookup_mem hi hl
    have h2 := (lookup_some hl).2.2
    rw [hi.key_inj o' o h1 ho (by rw [h2, hk])]

/-! ## The operations keep the invariants -/

theorem removeNode_keys {L : Layout} {r : Region} (hi : Inv L r) {o : Nat} (ho : o ∈ r.lru) :
    ∀ x, x ∈ (removeNode r o).lru → ((removeNode r o).nodes x).key ≠ (r.nodes o).key := by
  intro x hx hk
  have hx' : x ∈ r.lru.erase o := hx
  have hx2 := hi.lru_nodup.mem_erase_iff.1 hx'
  exact hx2.1 (hi.key_inj x o hx2.2 ho hk)

theorem inv_Set {L : Layout} {r : Region} (hi : Inv L r) (k v : Bytes) :
    Inv L (Set L r k v).2 := by
  unfold Set
  cases hl : lookup L r k with
  | none => exact inv_insertNew hi k v (lookup_none hi hl)
  | some o =>
    have ho := lookup_mem hi hl
    have hk := (lookup_some hl).2.2
    simp only
    split
    · exact inv_touch (inv_writeValue hi o v) ho
    · refine inv_insertNew (inv_removeNode hi ho) k v ?_
      intro x hx
      have := removeNode_keys hi ho x hx
      rwa [hk] at this

theorem inv_Get {L : Layout} {r : Region} (hi : Inv L r) (k : Bytes) :
    Inv L (Get L r k).2 := by
  unfold Get
  cases hl : lookup L r k with
  | none => exact hi
  | some o => exact inv_touch hi (lookup_mem hi hl)

theorem inv_Del {L : Layout} {r : Region} (hi : Inv L r) (k : Bytes) :
    Inv L (Del L r k).2 := by
  unfold Del
  cases hl : lookup L r k with
  | none => exact hi
  | some o => exact inv_removeNode hi (lookup_mem hi hl)

theorem init_of_valid (L : Layout) (r : Region) (h : r.valid = true) :
    init L r = (none, r) := by
  unfold init
  rw [if_pos h]

/-- Every region of an initialised manager satisfies the invariants. -/
theorem inv_of_initialised {L : Layout} {r : Region} (h : Initialised L r) : Inv L r := by
  induction h with
  | fresh r hr => exact inv_init L r hr
  | init r _ ih => rw [init_of_valid L r ih.valid]; exact ih
  | set r k v _ ih => exact inv_Set ih k v
  | get r k _ ih => exact inv_Get ih k
  | del r k _ ih => exact inv_Del ih k

/-! ## What `Set` leaves behind -/

theorem lookup_writeValue_touch (L : Layout) (r : Region) (o : Nat) (v k : Bytes) :
    lookup L (touch (writeValue r o v) o) k = lookup L r k := by
  unfold lookup
  have hp : (fun x => decide (((touch (writeValue r o v) o).nodes x).hash = L.hash k) &&
      decide (((touch (writeValue r o v) o).nodes x).key = k)) =
      (fun x => decide ((r.nodes x).hash = L.hash k) && decide ((r.nodes x).key = k)) := by
    funext x
    have hx := writeValue_nodes r o v x
    have e1 : ((touch (writeValue r o v) o).nodes x) = ((writeValue r o v).nodes x) := rfl
    rw [e1, hx.1, hx.2.1]
  rw [hp]
  rfl

theorem insertNew_lookup {L : Layout} {r : Region} {k v : Bytes}
    (h : (insertNew L r k v).1 = none) :
    ∃ o, lookup L (insertNew L r k v).2 k = some o ∧
      ((insertNew L r k v).2.nodes o).value = v ∧
      footprint L k v ≤ ((insertNew L r k v).2.nodes o).footprint ∧
      (insertNew L r k v).2.liveCount ≤ r.liveCount + 1 := by
  obtain ⟨-, -, -, f4, f5⟩ := allocateEvicting_frame (footprint L k v) r.liveCount r
  unfold insertNew at h ⊢
  cases hres : allocateEvicting r.liveCount r (footprint L k v) with
  | mk a r1 =>
    rw [hres] at h f4 f5
    cases a with
    | none => simp at h
    | some o =>
      refine ⟨o, ?_, ?_, ?_, ?_⟩
      · simp [lookup, bucketOf]
      · simp
      · simpa using f5 o rfl
      · simpa using f4

/-- After a `Set` that returns no error the key is found in its chain, at a node
that holds the value and is large enough for it. -/
theorem set_lookup {L : Layout} {r : Region} {k v : Bytes} (h : (Set L r k v).1 = none) :
    ∃ o, lookup L (Set L r k v).2 k = some o ∧ ((Set L r k v).2.nodes o).value = v ∧
      footprint L k v ≤ ((Set L r k v).2.nodes o).footprint := by
  unfold Set at h ⊢
  cases hl : lookup L r k with
  | none =>
    rw [hl] at h
    obtain ⟨o, h1, h2, h3, -⟩ := insertNew_lookup h
    exact ⟨o, h1, h2, h3⟩
  | some o =>
    rw [hl] at h
    simp only at h ⊢
    by_cases hfit : footprint L k v ≤ (r.nodes o).footprint
    · rw [if_pos hfit]
      refine ⟨o, ?_, ?_, ?_⟩
      · rw [lookup_writeValue_touch, hl]
      · simp [touch, writeValue]
      · have := (writeValue_nodes r o v o).2.2
        show footprint L k v ≤ ((writeValue r o v).nodes o).footprint
        rw [this]
        exact hfit
    · rw [if_neg hfit] at h ⊢
      obtain ⟨o', h1, h2, h3, -⟩ := insertNew_lookup h
      exact ⟨o', h1, h2, h3⟩

theorem get_of_lookup {L : Layout} {r : Region} {k : Bytes} {o : Nat}
    (h : lookup L r k = some o) :
    Get L r k = (Except.ok (r.nodes o).value, touch r o) := by
  unfold Get
  rw [h]

theorem get_of_lookup_none {L : Layout} {r : Region} {k : Bytes}
    (h : lookup L r k = none) :
    Get L r k = (Except.error CacheError.notFound, r) := by
  unfold Get
  rw [h]

/-- C3: round trip.  For every layout, region (in particular every region of an
initialised manager), key `k` and value `v`: if `Set(k, v)` returns no error, the
`Get(k)` that follows returns no error and exactly the bytes `v`. -/
theorem set_get_roundtrip (L : Layout) (r : Region) (k v : Bytes)
    (h : (Set L r k v).1 = none) : (Get L (Set L r k v).2 k).1 = Except.ok v := by
  obtain ⟨o, h1, h2, -⟩ := set_lookup h
  rw [get_of_lookup h1, h2]

/-- C4: deletion.  On an initialised manager, after a `Set(k, v)` that returns no
error, `Del(k)` returns no error, the `Get(k)` that follows fails with
`notFound`, and `liveCount` is exactly one less than before the `Del`. -/
theorem set_del_get (L : Layout) (r : Region) (k v : Bytes) (hr : Initialised L r)
    (h : (Set L r k v).1 = none) :
    (Del L (Set L r k v).2 k).1 = none ∧
    (Get L (Del L (Set L r k v).2 k).2 k).1 = Except.error CacheError.notFound ∧
    (Del L (Set L r k v).2 k).2.liveCount + 1 = (Set L r k v).2.liveCount := by
  have hi : Inv L (Set L r k v).2 := inv_Set (inv_of_initialised hr) k v
  obtain ⟨o, h1, -, -⟩ := set_lookup h
  have ho := lookup_mem hi h1
  have hk := (lookup_some h1).2.2
  have hdel : Del L (Set L r k v).2 k = (none, removeNode (Set L r k v).2 o) := by
    unfold Del
    rw [h1]
  rw [hdel]
  refine ⟨rfl, ?_, ?_⟩
  · have hnone : lookup L (removeNode (Set L r k v).2 o) k = none := by
      cases hl : lookup L (removeNode (Set L r k v).2 o) k with
      | none => rfl
      | some o' =>
        have hi2 := inv_removeNode hi ho
        have h2 := lookup_mem hi2 hl
        have h3 := (lookup_some hl).2.2
        have := removeNode_keys hi ho o' h2
        rw [hk] at this
        exact absurd h3 this
    rw [get_of_lookup_none hnone]
  · show (Set L r k v).2.liveCount - 1 + 1 = (Set L r k v).2.liveCount
    have hpos : 0 < (Set L r k v).2.lru.length := List.length_pos_of_mem ho
    rw [hi.live]
    omega

/-! ## Overwriting -/

theorem set_in_place {L : Layout} {r : Region} {k v : Bytes} {o : Nat}
    (hl : lookup L r k = some o) (hfit : footprint L k v ≤ (r.nodes o).footprint) :
    Set L r k v = (none, touch (writeValue r o v) o) := by
  unfold Set
  rw [hl]
  simp only
  rw [if_pos hfit]

theorem set_replace {L : Layout} {r : Region} {k v : Bytes} {o : Nat}
    (hl : lookup L r k = some o) (hfit : ¬ footprint L k v ≤ (r.nodes o).footprint) :
    Set L r k v = insertNew L (removeNode r o) k v := by
  unfold Set
  rw [hl]
  simp only
  rw [if_neg hfit]

theorem set_fresh {L : Layout} {r : Region} {k v : Bytes} (hl : lookup L r k = none) :
    Set L r k v = insertNew L r k v := by
  unfold Set
  rw [hl]

/-- Repeating a `Set` that has succeeded: every repetition succeeds, in place. -/
theorem set_repeat {L : Layout} {k v : Bytes} (n : Nat) : ∀ (r : Region),
    (∃ o, lookup L r k = some o ∧ footprint L k v ≤ (r.nodes o).footprint) →
    (Set L ((fun s => (Set L s k v).2)^[n] r) k v).1 = none ∧
    ((fun s => (Set L s k v).2)^[n] r).liveCount = r.liveCount ∧
    (Set L ((fun s => (Set L s k v).2)^[n] r) k v).2.liveCount = r.liveCount := by
  induction n with
  | zero =>
    rintro r ⟨o, h1, h2⟩
    have hs := set_in_place h1 h2
    refine ⟨?_, rfl, ?_⟩
    · show (Set L r k v).1 = none
      rw [hs]
    · show (Set L r k v).2.liveCount = r.liveCount
      rw [hs]
      rfl
  | succ n ih =>
    rintro r ⟨o, h1, h2⟩
    rw [Function.iterate_succ_apply]
    have hs : (Set L r k v).1 = none := by rw [set_in_place h1 h2]
    have hlc : (Set L r k v).2.liveCount = r.liveCount := by
      rw [set_in_place h1 h2]; rfl
    obtain ⟨o', g1, -, g3⟩ := set_lookup hs
    obtain ⟨i1, i2, i3⟩ := ih (Set L r k v).2 ⟨o', g1, g3⟩
    exact ⟨i1, by rw [i2, hlc], by rw [i3, hlc]⟩

/-! ## The recency view -/

theorem allocateEvicting_of_allocate {r r1 : Region} {fp o : Nat} (fuel : Nat)
    (h : allocate r fp = some (o, r1)) : allocateEvicting fuel r fp = (some o, r1) := by
  cases fuel <;> (unfold allocateEvicting; rw [h])

theorem mem_keys_of_lookup {L : Layout} {r : Region} (hi : Inv L r) {k : Bytes} {o : Nat}
    (h : lookup L r k = some o) : k ∈ keys r := by
  unfold keys
  exact List.mem_map.2 ⟨o, lookup_mem hi h, (lookup_some h).2.2⟩

theorem lookup_none_of_not_mem {L : Layout} {r : Region} (hi : Inv L r) {k : Bytes}
    (h : k ∉ keys r) : lookup L r k = none := by
  cases hl : lookup L r k with
  | none => rfl
  | some o => exact absurd (mem_keys_of_lookup hi hl) h

theorem keys_eq_view (r : Region) : keys r = (view r).map (fun e => e.1) := by
  unfold keys view
  rw [List.map_map]
  rfl

/-- A `Get` of a key that is not stored fails with `notFound` and changes nothing. -/
theorem get_miss {L : Layout} {r : Region} (hi : Inv L r) {k : Bytes} (h : k ∉ keys r) :
    Get L r k = (Except.error CacheError.notFound, r) :=
  get_of_lookup_none (lookup_none_of_not_mem hi h)

/-- A `Get` of a stored key returns its value and moves the entry to the front of
the recency order. -/
theorem get_hit {L : Layout} {r : Region} (hi : Inv L r) {k v : Bytes} {f : Nat}
    {xs ys : List (Bytes × Bytes × Nat)} (hv : view r = xs ++ (k, v, f) :: ys) :
    (Get L r k).1 = Except.ok v ∧ view (Get L r k).2 = (k, v, f) :: (xs ++ ys) ∧
      (Get L r k).2.freeList = r.freeList ∧ (Get L r k).2.allocCursor = r.allocCursor ∧
      (Get L r k).2.capacity = r.capacity ∧ (Get L r k).2.liveCount = r.liveCount := by
  unfold view at hv
  obtain ⟨l1, l2', hl, hm1, hm2⟩ := List.map_eq_append_iff.1 hv
  obtain ⟨o, l2, rfl, ho, hm3⟩ := List.map_eq_cons_iff.1 hm2
  have hmem : o ∈ r.lru := by rw [hl]; simp
  have hk : (r.nodes o).key = k := by
    have := congrArg Prod.fst ho
    exact this
  have hval : (r.nodes o).value = v := by
    have := congrArg (fun e => e.2.1) ho
    exact this
  have hlook := lookup_of_mem hi hmem hk
  rw [get_of_lookup hlook]
  refine ⟨by rw [hval], ?_, rfl, rfl, rfl, rfl⟩
  have hnd : (l1 ++ o :: l2).Nodup := by rw [← hl]; exact hi.lru_nodup
  have hnot : o ∉ l1 := by
    intro hc
    exact (List.nodup_append.1 hnd).2.2 hc (List.mem_cons_self _ _)
  show List.map (fun o => ((r.nodes o).key, (r.nodes o).value, (r.nodes o).footprint))
    (o :: r.lru.erase o) = _
  rw [hl, List.erase_append_right _ hnot, List.erase_cons_head, List.map_cons, List.map_append,
    hm1, hm3, ho]

theorem get_of_mem_view {L : Layout} {r : Region} (hi : Inv L r) {k v : Bytes} {f : Nat}
    (h : (k, v, f) ∈ view r) : (Get L r k).1 = Except.ok v := by
  obtain ⟨xs, ys, hv⟩ := List.append_of_mem h
  exact (get_hit hi hv).1

/-- A `Set` of a new key while the free list is empty and the region has room
appends the entry at the front, by bump allocation. -/
theorem set_fresh_bump {L : Layout} {r : Region} (hi : Inv L r) {k v : Bytes}
    (hk : k ∉ keys r) (hfree : r.freeList = [])
    (hroom : r.allocCursor + footprint L k v ≤ r.capacity) :
    (Set L r k v).1 = none ∧
      view (Set L r k v).2 = (k, v, footprint L k v) :: view r ∧
      (Set L r k v).2.freeList = [] ∧
      (Set L r k v).2.allocCursor = r.allocCursor + footprint L k v ∧
      (Set L r k v).2.capacity = r.capacity ∧
      (Set L r k v).2.liveCount = r.liveCount + 1 := by
  have ha : allocate r (footprint L k v) = some (r.allocCursor,
      { r with
        allocCursor := r.allocCursor + footprint L k v
        nodes := Function.update r.nodes r.allocCursor
          { r.nodes r.allocCursor with footprint := footprint L k v } }) := by
    unfold allocate
    split
    · unfold bumpAllocate
      rw [if_pos hroom]
    · rename_i o' rest hc
      rw [hfree] at hc
      cases hc
  rw [set_fresh (lookup_none_of_not_mem hi hk)]
  unfold insertNew
  rw [allocateEvicting_of_allocate _ ha]
  refine ⟨rfl, ?_, hfree, rfl, rfl, rfl⟩
  unfold view
  simp only [List.map_cons, Function.update_same]
  congr 1
  apply List.map_congr_left
  intro x hx
  have hne : x ≠ r.allocCursor := ne_of_lt (hi.lru_lt x hx)
  simp [Function.update_noteq hne]

/-- A `Set` of a new key while the free list is empty and the region is full
evicts exactly the least recently used entry, when the node of that entry is
large enough: the new entry comes first and all other entries keep their order. -/
theorem set_fresh_evict {L : Layout} {r : Region} (hi : Inv L r) {k v kt vt : Bytes}
    {ft : Nat} {vs : List (Bytes × Bytes × Nat)}
    (hk : k ∉ keys r) (hfree : r.freeList = [])
    (hfull : r.capacity < r.allocCursor + footprint L k v)
    (hv : view r = vs ++ [(kt, vt, ft)]) (hfit : footprint L k v ≤ ft) :
    (Set L r k v).1 = none ∧
      view (Set L r k v).2 = (k, v, ft) :: vs ∧
      (Set L r k v).2.freeList = [] ∧
      (Set L r k v).2.allocCursor = r.allocCursor ∧
      (Set L r k v).2.capacity = r.capacity ∧
      (Set L r k v).2.liveCount = r.liveCount := by
  unfold view at hv
  obtain ⟨l1, l2', hl, hm1, hm2⟩ := List.map_eq_append_iff.1 hv
  obtain ⟨t, l2, rfl, ht, hm3⟩ := List.map_eq_cons_iff.1 hm2
  have hl2 : l2 = [] := List.map_eq_nil_iff.1 hm3
  subst hl2
  have hlast : r.lru.getLast? = some t := by rw [hl]; simp
  have hmem : t ∈ r.lru := mem_of_getLast? hlast
  have hft : (r.nodes t).footprint = ft := congrArg (fun e => e.2.2) ht
  have hnd : (l1 ++ [t]).Nodup := by rw [← hl]; exact hi.lru_nodup
  have hnot : t ∉ l1 := by
    intro hc
    exact (List.nodup_append.1 hnd).2.2 hc (List.mem_singleton_self t)
  have herase : r.lru.erase t = l1 := by
    rw [hl, List.erase_append_right _ hnot]
    simp
  obtain ⟨n, hn⟩ : ∃ n, r.liveCount = n + 1 := by
    refine ⟨l1.length, ?_⟩
    rw [hi.live, hl]
    simp
  have hnone : allocate r (footprint L k v) = none := by
    unfold allocate
    split
    · unfold bumpAllocate
      rw [if_neg (by omega)]
    · rename_i o' rest hc
      rw [hfree] at hc
      cases hc
  have hvict : evictVictim r = some (t, { r with lru := r.lru.dropLast }) := by
    unfold evictVictim
    rw [hlast]
  have hpop : allocate (removeNode r t) (footprint L k v)
      = some (t, { removeNode r t with freeList := [] }) := by
    have hfl : (removeNode r t).freeList = [t] := by
      show t :: r.freeList = [t]
      rw [hfree]
    unfold allocate
    split
    · rename_i hc
      rw [hfl] at hc
      cases hc
    · rename_i o' rest hc
      rw [hfl] at hc
      injection hc with hc1 hc2
      subst hc1 hc2
      have hfit2 : footprint L k v ≤ ((removeNode r t).nodes t).footprint := by
        show footprint L k v ≤ (r.nodes t).footprint
        rw [hft]
        exact hfit
      rw [if_pos hfit2]
  have hae : allocateEvicting r.liveCount r (footprint L k v)
      = (some t, { removeNode r t with freeList := [] }) := by
    rw [hn]
    unfold allocateEvicting
    rw [hnone]
    simp only
    rw [hvict]
    simp only
    rw [evict_eq_removeNode hi hlast]
    exact allocateEvicting_of_allocate n hpop
  rw [set_fresh (lookup_none_of_not_mem hi hk)]
  unfold insertNew
  rw [hae]
  refine ⟨rfl, ?_, rfl, rfl, rfl, ?_⟩
  · show List.map _ (t :: r.lru.erase t) = _
    rw [herase]
    simp only [List.map_cons, Function.update_same]
    have e1 : ((removeNode r t).nodes t).footprint = ft := hft
    rw [e1]
    congr 1
    rw [← hm1]
    apply List.map_congr_left
    intro x hx
    have hne : x ≠ t := fun hc => hnot (hc ▸ hx)
    simp only [Function.update_noteq hne]
    rfl
  · show r.liveCount - 1 + 1 = r.liveCount
    omega

/-! ## The eviction scenario -/

theorem filled_init (L : Layout) (r0 : Region) (h : r0.valid = false) :
    Filled L (init L r0).2 [] (init L r0).2.allocCursor r0.capacity := by
  refine ⟨inv_init L r0 h, ?_, ?_, rfl, ?_⟩ <;>
    (unfold init; rw [if_neg (by simp [h])])
  rfl

theorem filled_keys {L : Layout} {r : Region} {vs : List (Bytes × Bytes × Nat)}
    {cur cap : Nat} (h : Filled L r vs cur cap) : keys r = vs.map (fun e => e.1) := by
  rw [keys_eq_view, h.2.1]

theorem filled_set_bump {L : Layout} {r : Region} {vs : List (Bytes × Bytes × Nat)}
    {cur cap : Nat} (h : Filled L r vs cur cap) (k v : Bytes)
    (hk : k ∉ vs.map (fun e => e.1)) (hroom : cur + footprint L k v ≤ cap) :
    (Set L r k v).1 = none ∧
      Filled L (Set L r k v).2 ((k, v, footprint L k v) :: vs) (cur + footprint L k v) cap ∧
      (Set L r k v).2.liveCount = r.liveCount + 1 := by
  obtain ⟨hi, hv, hf, hc, hcap⟩ := h
  have hk' : k ∉ keys r := by rw [keys_eq_view, hv]; exact hk
  obtain ⟨s1, s2, s3, s4, s5, s6⟩ := set_fresh_bump hi hk' hf (by rw [hc, hcap]; exact hroom)
  exact ⟨s1, ⟨inv_Set hi k v, by rw [s2, hv], s3, by rw [s4, hc], by rw [s5, hcap]⟩, s6⟩

theorem filled_set_evict {L : Layout} {r : Region} {vs : List (Bytes × Bytes × Nat)}
    {kt vt : Bytes} {ft cur cap : Nat} (h : Filled L r (vs ++ [(kt, vt, ft)]) cur cap)
    (k v : Bytes) (hk : k ∉ (vs ++ [(kt, vt, ft)]).map (fun e => e.1))
    (hfull : cap < cur + footprint L k v) (hfit : footprint L k v ≤ ft) :
    (Set L r k v).1 = none ∧ Filled L (Set L r k v).2 ((k, v, ft) :: vs) cur cap ∧
      (Set L r k v).2.liveCount = r.liveCount := by
  obtain ⟨hi, hv, hf, hc, hcap⟩ := h
  have hk' : k ∉ keys r := by rw [keys_eq_view, hv]; exact hk
  obtain ⟨s1, s2, s3, s4, s5, s6⟩ :=
    set_fresh_evict hi hk' hf (by rw [hc, hcap]; exact hfull) hv hfit
  exact ⟨s1, ⟨inv_Set hi k v, s2, s3, by rw [s4, hc], by rw [s5, hcap]⟩, s6⟩

theorem filled_get_hit {L : Layout} {r : Region} {xs ys : List (Bytes × Bytes × Nat)}
    {k v : Bytes} {f cur cap : Nat} (h : Filled L r (xs ++ (k, v, f) :: ys) cur cap) :
    (Get L r k).1 = Except.ok v ∧ Filled L (Get L r k).2 ((k, v, f) :: (xs ++ ys)) cur cap := by
  obtain ⟨hi, hv, hf, hc, hcap⟩ := h
  obtain ⟨g1, g2, g3, g4, g5, -⟩ := get_hit hi hv
  exact ⟨g1, inv_Get hi k, g2, by rw [g3, hf], by rw [g4, hc], by rw [g5, hcap]⟩

theorem filled_get_mem {L : Layout} {r : Region} {vs : List (Bytes × Bytes × Nat)}
    {cur cap : Nat} (h : Filled L r vs cur cap) (k v : Bytes) (f : Nat)
    (hm : (k, v, f) ∈ vs) : (Get L r k).1 = Except.ok v :=
  get_of_mem_view h.1 (by rw [h.2.1]; exact hm)

theorem filled_get_miss {L : Layout} {r : Region} {vs : List (Bytes × Bytes × Nat)}
    {cur cap : Nat} (h : Filled L r vs cur cap) {k : Bytes}
    (hk : k ∉ vs.map (fun e => e.1)) : (Get L r k).1 = Except.error CacheError.notFound := by
  rw [get_miss h.1 (by rw [filled_keys h]; exact hk)]

/-- C6: LRU eviction.  In a freshly initialised region with room for exactly four
entries of footprint `F`, after `Set` of four distinct keys `k1 … k4` (all then
retrievable), the `Set` of a fifth distinct key `k5` of the same footprint returns
no error and evicts exactly the least recently touched key: `Get(k1)` fails
with `notFound` while `k2 … k5` are retrievable and `liveCount` stays `4`.  If a
`Get(k1)` promotes `k1` before `k5` is inserted, `k1` survives and the untouched
oldest key `k2` is the one evicted. -/
theorem lru_eviction (L : Layout) (r0 : Region) (k1 k2 k3 k4 k5 v1 v2 v3 v4 v5 : Bytes)
    (F : Nat) (hraw : r0.valid = false)
    (hF1 : footprint L k1 v1 = F) (hF2 : footprint L k2 v2 = F)
    (hF3 : footprint L k3 v3 = F) (hF4 : footprint L k4 v4 = F)
    (hF5 : footprint L k5 v5 = F)
    (hlo : (init L r0).2.allocCursor + 4 * F ≤ r0.capacity)
    (hhi : r0.capacity < (init L r0).2.allocCursor + 5 * F)
    (hk : [k1, k2, k3, k4, k5].Nodup) :
    ∃ r1 r2 r3 r4 r5 r6 : Region,
      Set L (init L r0).2 k1 v1 = (none, r1) ∧ Set L r1 k2 v2 = (none, r2) ∧
      Set L r2 k3 v3 = (none, r3) ∧ Set L r3 k4 v4 = (none, r4) ∧
      (Get L r4 k1).1 = Except.ok v1 ∧ (Get L r4 k2).1 = Except.ok v2 ∧
      (Get L r4 k3).1 = Except.ok v3 ∧ (Get L r4 k4).1 = Except.ok v4 ∧
      Set L r4 k5 v5 = (none, r5) ∧
      (Get L r5 k1).1 = Except.error CacheError.notFound ∧
      (Get L r5 k5).1 = Except.ok v5 ∧ (Get L r5 k2).1 = Except.ok v2 ∧
      (Get L r5 k3).1 = Except.ok v3 ∧ (Get L r5 k4).1 = Except.ok v4 ∧
      r5.liveCount = 4 ∧
      Set L (Get L r4 k1).2 k5 v5 = (none, r6) ∧
      (Get L r6 k1).1 = Except.ok v1 ∧
      (Get L r6 k2).1 = Except.error CacheError.notFound ∧
      (Get L r6 k5).1 = Except.ok v5 ∧ (Get L r6 k3).1 = Except.ok v3 ∧
      (Get L r6 k4).1 = Except.ok v4 := by
  simp only [List.nodup_cons, List.mem_cons, List.mem_singleton, not_or, List.not_mem_nil,
    not_false_eq_true, List.nodup_nil, and_true] at hk
  obtain ⟨⟨n12, n13, n14, n15⟩, ⟨n23, n24, n25⟩, ⟨n34, n35⟩, n45⟩ := hk
  have h0 := filled_init L r0 hraw
  have hlive0 : (init L r0).2.liveCount = 0 := by
    unfold init; rw [if_neg (by simp [hraw])]
  generalize (init L r0).2 = ra at h0 hlo hhi hlive0 ⊢
  generalize ra.allocCursor = c at h0 hlo hhi
  obtain ⟨e1, f1, c1⟩ := filled_set_bump h0 k1 v1 (by simp) (by rw [hF1]; omega)
  obtain ⟨e2, f2, c2⟩ := filled_set_bump f1 k2 v2 (by simp [Ne.symm n12])
    (by rw [hF1, hF2]; omega)
  obtain ⟨e3, f3, c3⟩ := filled_set_bump f2 k3 v3 (by simp [Ne.symm n13, Ne.symm n23])
    (by rw [hF1, hF2, hF3]; omega)
  obtain ⟨e4, f4, c4⟩ := filled_set_bump f3 k4 v4
    (by simp [Ne.symm n14, Ne.symm n24, Ne.symm n34]) (by rw [hF1, hF2, hF3, hF4]; omega)
  generalize hs1 : Set L ra k1 v1 = s1 at e1 f1 c1 e2 f2 c2 e3 f3 c3 e4 f4 c4
  generalize hs2 : Set L s1.2 k2 v2 = s2 at e2 f2 c2 e3 f3 c3 e4 f4 c4
  generalize hs3 : Set L s2.2 k3 v3 = s3 at e3 f3 c3 e4 f4 c4
  generalize hs4 : Set L s3.2 k4 v4 = s4 at e4 f4 c4
  rw [hF1, hF2, hF3, hF4] at f4
  have f4' : Filled L s4.2 ([(k4, v4, F), (k3, v3, F), (k2, v2, F)] ++ [(k1, v1, F)])
      (c + F + F + F + F) r0.capacity := f4
  obtain ⟨e5, f5, c5⟩ := filled_set_evict f4' k5 v5
    (by simp [Ne.symm n15, Ne.symm n25, Ne.symm n35, Ne.symm n45])
    (by rw [hF5]; omega) (by rw [hF5])
  -- the promoted variant
  have f4'' : Filled L s4.2 ([(k4, v4, F), (k3, v3, F), (k2, v2, F)] ++ (k1, v1, F) :: [])
      (c + F + F + F + F) r0.capacity := f4
  obtain ⟨g1, fg⟩ := filled_get_hit f4''
  have fg' : Filled L (Get L s4.2 k1).2
      ([(k1, v1, F), (k4, v4, F), (k3, v3, F)] ++ [(k2, v2, F)])
      (c + F + F + F + F) r0.capacity := by simpa using fg
  obtain ⟨e6, f6, -⟩ := filled_set_evict fg' k5 v5
    (by simp [Ne.symm n15, Ne.symm n25, Ne.symm n35, Ne.symm n45])
    (by rw [hF5]; omega) (by rw [hF5])
  refine ⟨s1.2, s2.2, s3.2, s4.2, (Set L s4.2 k5 v5).2, (Set L (Get L s4.2 k1).2 k5 v5).2,
    Prod.ext e1 rfl, by rw [hs2]; exact Prod.ext e2 rfl, by rw [hs3]; exact Prod.ext e3 rfl,
    by rw [hs4]; exact Prod.ext e4 rfl,
    g1, ?_, ?_, ?_, Prod.ext e5 rfl, ?_, ?_, ?_, ?_, ?_, ?_, Prod.ext e6 rfl,
    ?_, ?_, ?_, ?_, ?_⟩
  · exact filled_get_mem f4 k2 v2 F (by simp)
  · exact filled_get_mem f4 k3 v3 F (by simp)
  · exact filled_get_mem f4 k4 v4 F (by simp)
  · exact filled_get_miss f5 (by simp [n12, n13, n14, n15])
  · exact filled_get_mem f5 k5 v5 F (by simp)
  · exact filled_get_mem f5 k2 v2 F (by simp)
  · exact filled_get_mem f5 k3 v3 F (by simp)
  · exact filled_get_mem f5 k4 v4 F (by simp)
  · rw [c5, c4, c3, c2, c1, hlive0]
  · exact filled_get_mem f6 k1 v1 F (by simp)
  · exact filled_get_miss f6 (by simp [Ne.symm n12, n23, n24, n25])
  · exact filled_get_mem f6 k5 v5 F (by simp)
  · exact filled_get_mem f6 k3 v3 F (by simp)
  · exact filled_get_mem f6 k4 v4 F (by simp)

/-! ## The example region -/

theorem findNextPrime_exampleLayout : findNextPrime exampleLayout.tableSize = 5 := by
  have p5 : ProbablyPrime 5 = true := (probablyPrime_natCast 5).2 (by norm_num)
  show findNextPrime 5 = 5
  rw [findNextPrime_eq, if_pos p5]

theorem init_rawRegion (cap : Nat) :
    init exampleLayout (rawRegion cap) = (none, emptyRegion cap) := by
  unfold init
  rw [if_neg (by simp [rawRegion]), findNextPrime_exampleLayout]
  rfl

theorem initialised_emptyRegion (cap : Nat) : Initialised exampleLayout (emptyRegion cap) := by
  have h := Initialised.fresh (L := exampleLayout) (rawRegion cap) rfl
  rw [init_rawRegion] at h
  exact h

theorem set_get_roundtrip_witness :
    (Set exampleLayout (emptyRegion 304) [97] [1]).1 = none ∧
      (Get exampleLayout (Set exampleLayout (emptyRegion 304) [97] [1]).2 [97]).1
        = Except.ok [1] :=
  ⟨by decide, set_get_roundtrip exampleLayout (emptyRegion 304) [97] [1] (by decide)⟩

theorem set_del_get_witness :
    Initialised exampleLayout (emptyRegion 304) ∧
      (Set exampleLayout (emptyRegion 304) [97] [1]).1 = none ∧
      (Del exampleLayout (Set exampleLayout (emptyRegion 304) [97] [1]).2 [97]).1 = none ∧
      (Get exampleLayout
        (Del exampleLayout (Set exampleLayout (emptyRegion 304) [97] [1]).2 [97]).2 [97]).1
        = Except.error CacheError.notFound :=
  ⟨initialised_emptyRegion 304, by decide,
    (set_del_get exampleLayout (emptyRegion 304) [97] [1] (initialised_emptyRegion 304)
      (by decide)).1,
    (set_del_get exampleLayout (emptyRegion 304) [97] [1] (initialised_emptyRegion 304)
      (by decide)).2.1⟩

set_option maxRecDepth 10000 in
/-- C5 (counterexample): on an initialised manager a `Set` can fail: by section
4.4 of the design an entry larger than the usable capacity "fails with
`EntryTooLarge`" (a value of 120 bytes in a region of 254 bytes).  And an
overwrite with a longer value can succeed and still lower `liveCount`, which by
section 3 "equals the number of nodes reachable from the bucket table": in
`crowdedRegion`, `Set(k, v1)` and `Set(k, v2)` both return no error, but the
second has to evict the other entry and `liveCount` drops from `2` to `1`. -/
theorem overwrite_lowers_liveCount :
    Initialised exampleLayout (emptyRegion 254) ∧
    (Set exampleLayout (emptyRegion 254) [107] (List.replicate 120 0)).1
      = some CacheError.entryTooLarge ∧
    Initialised exampleLayout crowdedRegion ∧
    (Set exampleLayout crowdedRegion [107] [1]).1 = none ∧
    (Set exampleLayout (Set exampleLayout crowdedRegion [107] [1]).2 [107]
      (List.replicate 11 7)).1 = none ∧
    (Set exampleLayout crowdedRegion [107] [1]).2.liveCount = 2 ∧
    (Set exampleLayout (Set exampleLayout crowdedRegion [107] [1]).2 [107]
      (List.replicate 11 7)).2.liveCount = 1 :=
  ⟨initialised_emptyRegion 254, by decide,
    Initialised.set (emptyRegion 254) [120] (List.replicate 51 0) (initialised_emptyRegion 254),
    by decide, by decide, by decide, by decide⟩

theorem lru_eviction_witness :
    ∃ r4 r5 r6 : Region,
      (Get exampleLayout r4 [97]).1 = Except.ok [1] ∧
      (Get exampleLayout r5 [97]).1 = Except.error CacheError.notFound ∧
      (Get exampleLayout r5 [101]).1 = Except.ok [5] ∧
      (Get exampleLayout r6 [97]).1 = Except.ok [1] ∧
      (Get exampleLayout r6 [98]).1 = Except.error CacheError.notFound := by
  obtain ⟨r1, r2, r3, r4, r5, r6, h⟩ :=
    lru_eviction exampleLayout (rawRegion 304) [97] [98] [99] [100] [101] [1] [2] [3] [4] [5]
      50 rfl (by decide) (by decide) (by decide) (by decide) (by decide)
      (by rw [init_rawRegion]; decide) (by rw [init_rawRegion]; decide) (by decide)
  exact ⟨r4, r5, r6, h.2.2.2.2.1, h.2.2.2.2.2.2.2.2.2.1, h.2.2.2.2.2.2.2.2.2.2.1,
    h.2.2.2.2.2.2.2.2.2.2.2.2.2.2.2.2.1, h.2.2.2.2.2.2.2.2.2.2.2.2.2.2.2.2.2.1⟩

/-! ## Overwriting with a value of another length -/

/-- When the first allocation attempt fails, a successful eviction loop has
evicted at least one entry. -/
theorem allocateEvicting_evicts {r : Region} {fp : Nat} (fuel : Nat)
    (hnone : allocate r fp = none) (hpos : 0 < r.liveCount)
    (hs : (allocateEvicting fuel r fp).1 ≠ none) :
    (allocateEvicting fuel r fp).2.liveCount < r.liveCount := by
  cases fuel with
  | zero =>
    unfold allocateEvicting at hs
    rw [hnone] at hs
    exact absurd rfl hs
  | succ fuel =>
    unfold allocateEvicting at hs ⊢
    rw [hnone] at hs ⊢
    simp only at hs ⊢
    cases hv : evictVictim r with
    | none =>
      rw [hv] at hs
      exact absurd rfl hs
    | some p =>
      obtain ⟨t, r1⟩ := p
      obtain ⟨-, rfl⟩ := evictVictim_some hv
      simp only
      obtain ⟨-, -, -, f4, -⟩ := allocateEvicting_frame fp fuel
        (free { unlinkChain { r with lru := r.lru.dropLast } t with
          liveCount := (unlinkChain { r with lru := r.lru.dropLast } t).liveCount - 1 } t)
      refine lt_of_le_of_lt f4 ?_
      show r.liveCount - 1 < r.liveCount
      omega

/-- An overwrite that does not fit the old node but finds room past the cursor
allocates a new node without evicting. -/
theorem allocate_after_remove {L : Layout} {r : Region} {k v : Bytes} {o : Nat}
    (hfit : ¬ footprint L k v ≤ (r.nodes o).footprint)
    (hroom : r.allocCursor + footprint L k v ≤ r.capacity) :
    ∃ r1, allocate (removeNode r o) (footprint L k v) = some (r.allocCursor, r1) ∧
      r1.liveCount = r.liveCount - 1 := by
  have hfl : (removeNode r o).freeList = o :: r.freeList := rfl
  unfold allocate
  split
  · rename_i hc
    rw [hfl] at hc
    cases hc
  · rename_i o' rest hc
    rw [hfl] at hc
    injection hc with hc1 hc2
    subst hc1
    have hfit2 : ¬ footprint L k v ≤ ((removeNode r o).nodes o).footprint := hfit
    rw [if_neg hfit2]
    have hroom2 : (removeNode r o).allocCursor + footprint L k v ≤ (removeNode r o).capacity :=
      hroom
    unfold bumpAllocate
    rw [if_pos hroom2]
    exact ⟨_, rfl, rfl⟩

theorem allocate_after_remove_none {L : Layout} {r : Region} {k v : Bytes} {o : Nat}
    (hfit : ¬ footprint L k v ≤ (r.nodes o).footprint)
    (hroom : ¬ r.allocCursor + footprint L k v ≤ r.capacity) :
    allocate (removeNode r o) (footprint L k v) = none := by
  have hfl : (removeNode r o).freeList = o :: r.freeList := rfl
  unfold allocate
  split
  · rename_i hc
    rw [hfl] at hc
    cases hc
  · rename_i o' rest hc
    rw [hfl] at hc
    injection hc with hc1 hc2
    subst hc1
    have hfit2 : ¬ footprint L k v ≤ ((removeNode r o).nodes o).footprint := hfit
    rw [if_neg hfit2]
    have hroom2 : ¬ (removeNode r o).allocCursor + footprint L k v
        ≤ (removeNode r o).capacity := hroom
    unfold bumpAllocate
    rw [if_neg hroom2]

/-- The overwrite of a stored key, case by case: in place when the new payload
fits the node; by a fresh allocation, without eviction, when it does not fit but
there is room past the cursor; and otherwise only by evicting, so that a success
lowers `liveCount`. -/
theorem set_existing {L : Layout} {r : Region} (hi : Inv L r) {k v : Bytes} {o : Nat}
    (hl : lookup L r k = some o) :
    ((Set L r k v).1 = none → (Set L r k v).2.liveCount ≤ r.liveCount) ∧
    (footprint L k v ≤ (r.nodes o).footprint ∨
        r.allocCursor + footprint L k v ≤ r.capacity →
      (Set L r k v).1 = none ∧ (Set L r k v).2.liveCount = r.liveCount) ∧
    (¬ footprint L k v ≤ (r.nodes o).footprint →
      ¬ r.allocCursor + footprint L k v ≤ r.capacity →
      (Set L r k v).1 = none → (Set L r k v).2.liveCount < r.liveCount) := by
  have ho := lookup_mem hi hl
  have hpos : 0 < r.lru.length := List.length_pos_of_mem ho
  have hlive := hi.live
  have hrm : (removeNode r o).liveCount = r.liveCount - 1 := rfl
  by_cases hfit : footprint L k v ≤ (r.nodes o).footprint
  · have hs := set_in_place (v := v) hl hfit
    refine ⟨fun _ => ?_, fun _ => ⟨?_, ?_⟩, fun hc => absurd hfit hc⟩
    · rw [hs]; exact le_refl _
    · rw [hs]
    · rw [hs]; rfl
  · have hs := set_replace (v := v) hl hfit
    rw [hs]
    refine ⟨?_, ?_, ?_⟩
    · intro hok
      obtain ⟨-, -, -, -, e4⟩ := insertNew_lookup hok
      rw [hrm] at e4
      omega
    · intro hor
      have hroom : r.allocCursor + footprint L k v ≤ r.capacity :=
        hor.resolve_left hfit
      obtain ⟨r1, ha, hlc⟩ := allocate_after_remove hfit hroom
      unfold insertNew
      rw [allocateEvicting_of_allocate _ ha]
      refine ⟨rfl, ?_⟩
      show r1.liveCount + 1 = r.liveCount
      rw [hlc]
      omega
    · intro _ hroom hok
      have hnone := allocate_after_remove_none hfit hroom
      unfold insertNew at hok ⊢
      cases hres : allocateEvicting (removeNode r o).liveCount (removeNode r o)
          (footprint L k v) with
      | mk a r1 =>
        rw [hres] at hok
        cases a with
        | none => simp at hok
        | some o' =>
          show r1.liveCount + 1 < r.liveCount
          by_cases hz : 0 < (removeNode r o).liveCount
          · have hev := allocateEvicting_evicts (removeNode r o).liveCount hnone hz
              (by rw [hres]; simp)
            rw [hres, hrm] at hev
            have : r1.liveCount < r.liveCount - 1 := hev
            omega
          · have hz0 : (removeNode r o).liveCount = 0 := by omega
            rw [hz0] at hres
            unfold allocateEvicting at hres
            rw [hnone] at hres
            simp at hres

/-- C5 (as amended): on an initialised manager, after a `Set(k, v1)` that returns
no error, let `o` be the node of `k`.  If `v2` fits the footprint of `o` (as it
does when `v2` is no longer than `v1`) or the region has room for the new entry
past `allocCursor`, the following `Set(k, v2)` returns no error, `Get(k)` returns
`v2` and `liveCount` equals its value after the first `Set`.  Otherwise the
second `Set` has to evict: if it returns no error, `Get(k)` returns `v2` and
`liveCount` is strictly lower.  Any number of further `Set(k, v1)` calls all
return no error and leave `liveCount` unchanged. -/
theorem set_overwrite (L : Layout) (r : Region) (k v1 v2 : Bytes) (hr : Initialised L r)
    (h1 : (Set L r k v1).1 = none) :
    ∃ o, lookup L (Set L r k v1).2 k = some o ∧
    (footprint L k v2 ≤ ((Set L r k v1).2.nodes o).footprint ∨
        (Set L r k v1).2.allocCursor + footprint L k v2 ≤ (Set L r k v1).2.capacity →
      (Set L (Set L r k v1).2 k v2).1 = none ∧
      (Get L (Set L (Set L r k v1).2 k v2).2 k).1 = Except.ok v2 ∧
      (Set L (Set L r k v1).2 k v2).2.liveCount = (Set L r k v1).2.liveCount) ∧
    (v2.length ≤ v1.length →
      footprint L k v2 ≤ ((Set L r k v1).2.nodes o).footprint) ∧
    (¬ footprint L k v2 ≤ ((Set L r k v1).2.nodes o).footprint →
      ¬ (Set L r k v1).2.allocCursor + footprint L k v2 ≤ (Set L r k v1).2.capacity →
      (Set L (Set L r k v1).2 k v2).1 = none →
      (Get L (Set L (Set L r k v1).2 k v2).2 k).1 = Except.ok v2 ∧
      (Set L (Set L r k v1).2 k v2).2.liveCount < (Set L r k v1).2.liveCount) ∧
    (∀ n : Nat,
      (Set L ((fun s => (Set L s k v1).2)^[n] (Set L r k v1).2) k v1).1 = none ∧
      (Set L ((fun s => (Set L s k v1).2)^[n] (Set L r k v1).2) k v1).2.liveCount
        = (Set L r k v1).2.liveCount) := by
  have hi : Inv L (Set L r k v1).2 := inv_Set (inv_of_initialised hr) k v1
  obtain ⟨o, g1, -, g3⟩ := set_lookup h1
  have hget : ∀ hs : (Set L (Set L r k v1).2 k v2).1 = none,
      (Get L (Set L (Set L r k v1).2 k v2).2 k).1 = Except.ok v2 := by
    intro hs
    obtain ⟨o2, e1, e2, -⟩ := set_lookup hs
    rw [get_of_lookup e1, e2]
  obtain ⟨-, c2, c3⟩ := set_existing (v := v2) hi g1
  refine ⟨o, g1, ?_, ?_, ?_, ?_⟩
  · intro hor
    obtain ⟨s1, s2⟩ := c2 hor
    exact ⟨s1, hget s1, s2⟩
  · intro hlen
    refine le_trans ?_ g3
    unfold footprint
    omega
  · intro hfit hroom hok
    exact ⟨hget hok, c3 hfit hroom hok⟩
  · intro n
    obtain ⟨i1, -, i3⟩ := set_repeat (L := L) (k := k) (v := v1) n (Set L r k v1).2 ⟨o, g1, g3⟩
    exact ⟨i1, i3⟩

theorem set_overwrite_witness :
    Initialised exampleLayout (emptyRegion 304) ∧
      (Set exampleLayout (emptyRegion 304) [107] [1]).1 = none ∧
      (Set exampleLayout (Set exampleLayout (emptyRegion 304) [107] [1]).2 [107]
        [1, 2, 3]).1 = none ∧
      (Get exampleLayout
        (Set exampleLayout (Set exampleLayout (emptyRegion 304) [107] [1]).2 [107]
          [1, 2, 3]).2 [107]).1 = Except.ok [1, 2, 3] ∧
      (Set exampleLayout (Set exampleLayout (emptyRegion 304) [107] [1]).2 [107]
        [1, 2, 3]).2.liveCount
        = (Set exampleLayout (emptyRegion 304) [107] [1]).2.liveCount := by
  obtain ⟨o, -, hB, -, -, -⟩ := set_overwrite exampleLayout (emptyRegion 304) [107] [1]
    [1, 2, 3] (initialised_emptyRegion 304) (by decide)
  exact ⟨initialised_emptyRegion 304, by decide, hB (Or.inr (by decide))⟩

end Fastcache
